import Mathlib

/-!
Shallow embedding of the inventory-management program (`src/main.py`):
the `Producto` value object, the `Inventario` store with its three parallel
structures (primary dict `productos`, id set `ids_productos`, name index
`indice_nombres`), and JSON-file persistence (`guardar_inventario` /
`cargar_inventario`).

Python strings are modelled as Lean `String`; `str.strip`, `str.lower`,
`str.upper`, `str.title` and substring containment are modelled over ASCII
letters and whitespace, which covers the case-mapping behaviour the program
relies on.  Python `dict` is modelled as an insertion-ordered association
list with unique keys, `set` as an insertion-ordered duplicate-free list.
`float` prices are modelled as `ℚ`, Python `int` quantities as `ℤ`.
The filesystem is modelled by an explicit `Archivo` value: the file is
absent, unparseable, or parses to a record of the persisted JSON object.
`datetime.now()` is modelled as an explicit `now : String` argument.
-/

/-- Characters Python `str.strip` removes, restricted to ASCII whitespace. -/
def esEspacio (c : Char) : Bool :=
  c = ' ' || c = '\t' || c = '\n' || c = '\r' || c = '\x0b' || c = '\x0c'

/-- Table of (uppercase, lowercase) ASCII letter pairs used for case mapping. -/
def paresMayusMinus : List (Char × Char) :=
  [('A', 'a'), ('B', 'b'), ('C', 'c'), ('D', 'd'), ('E', 'e'), ('F', 'f'),
   ('G', 'g'), ('H', 'h'), ('I', 'i'), ('J', 'j'), ('K', 'k'), ('L', 'l'),
   ('M', 'm'), ('N', 'n'), ('O', 'o'), ('P', 'p'), ('Q', 'q'), ('R', 'r'),
   ('S', 's'), ('T', 't'), ('U', 'u'), ('V', 'v'), ('W', 'w'), ('X', 'x'),
   ('Y', 'y'), ('Z', 'z')]

/-- Lowercase an ASCII letter (identity on everything else). -/
def minusChar (c : Char) : Char :=
  ((paresMayusMinus.find? (fun e => e.1 = c)).map (fun e => e.2)).getD c

/-- Uppercase an ASCII letter (identity on everything else). -/
def mayusChar (c : Char) : Char :=
  ((paresMayusMinus.find? (fun e => e.2 = c)).map (fun e => e.1)).getD c

/-- Whether a character is a cased (ASCII) letter; Python `str.isalpha`
for the letters relevant to `str.title`. -/
def esLetra (c : Char) : Bool :=
  paresMayusMinus.any (fun e => e.1 = c || e.2 = c)

/-- Model of Python `str.strip` on the character list: remove leading and
trailing whitespace. -/
def stripChars (l : List Char) : List Char :=
  List.rdropWhile esEspacio (List.dropWhile esEspacio l)

/-- Model of Python `str.strip`. -/
def pyStrip (s : String) : String := ⟨stripChars s.data⟩

/-- Model of Python `str.lower`. -/
def pyLower (s : String) : String := ⟨s.data.map minusChar⟩

/-- Model of Python `str.upper`. -/
def pyUpper (s : String) : String := ⟨s.data.map mayusChar⟩

/-- Model of Python `str.title` on the character list: a cased character is
uppercased when the previous character is not cased, lowercased otherwise.
The boolean argument records whether the previous character was cased. -/
def titleChars : Bool → List Char → List Char
  | _, [] => []
  | prev, c :: rest =>
    (if prev then minusChar c else mayusChar c) :: titleChars (esLetra c) rest

/-- Model of Python `str.title`. -/
def pyTitle (s : String) : String := ⟨titleChars false s.data⟩

/-- Whether `busq` occurs at the start of `l`; helper for substring search. -/
def comienzaCon : List Char → List Char → Bool
  | [], _ => true
  | _ :: _, [] => false
  | a :: as, b :: bs => a = b && comienzaCon as bs

/-- Whether `busq` occurs as a contiguous substring of `l`. -/
def subCadenaDe (busq : List Char) : List Char → Bool
  | [] => comienzaCon busq []
  | b :: bs => comienzaCon busq (b :: bs) || subCadenaDe busq bs

/-- Model of Python `needle in hay` on strings. -/
def pyContiene (hay needle : String) : Bool := subCadenaDe needle.data hay.data

/-- Model of the `Producto` class: the four validated fields plus the
creation timestamp. -/
structure Producto where
  id_producto : String
  nombre : String
  cantidad : Int
  precio : ℚ
  fecha_creacion : String
deriving DecidableEq, Repr

/-- Validation `Producto._validar_id`: reject blank ids, normalize to
trimmed uppercase. -/
def validar_id (id_producto : String) : Except String String :=
  if pyStrip id_producto = "" then
    .error "El ID del producto debe ser una cadena no vacia"
  else
    .ok (pyUpper (pyStrip id_producto))

/-- Validation `Producto._validar_nombre`: reject blank names, normalize to
trimmed title case. -/
def validar_nombre (nombre : String) : Except String String :=
  if pyStrip nombre = "" then
    .error "El nombre del producto debe ser una cadena no vacia"
  else
    .ok (pyTitle (pyStrip nombre))

/-- Validation `Producto._validar_cantidad`: reject negative quantities. -/
def validar_cantidad (cantidad : Int) : Except String Int :=
  if cantidad < 0 then
    .error "La cantidad debe ser un numero entero no negativo"
  else
    .ok cantidad

/-- Validation `Producto._validar_precio`: reject negative prices. -/
def validar_precio (precio : ℚ) : Except String ℚ :=
  if precio < 0 then
    .error "El precio debe ser un numero no negativo"
  else
    .ok precio

/-- Model of `Producto.__init__`: validate all four fields, stamp the
creation time (`datetime.now()` passed explicitly as `now`). -/
def Producto.crear (id_producto nombre : String) (cantidad : Int) (precio : ℚ)
    (now : String) : Except String Producto := do
  let i ← validar_id id_producto
  let n ← validar_nombre nombre
  let c ← validar_cantidad cantidad
  let p ← validar_precio precio
  .ok ⟨i, n, c, p, now⟩

/-- Model of `Producto.calcular_valor_total`: quantity times price. -/
def Producto.calcular_valor_total (p : Producto) : ℚ :=
  (p.cantidad : ℚ) * p.precio

/-- One serialized product record as stored in the JSON file; the
`fecha_creacion` key may be absent (`dict.get` with default). -/
structure ProductoDict where
  id_producto : String
  nombre : String
  cantidad : Int
  precio : ℚ
  fecha_creacion : Option String
deriving DecidableEq, Repr

/-- Model of `Producto.to_dict`. -/
def Producto.to_dict (p : Producto) : ProductoDict :=
  ⟨p.id_producto, p.nombre, p.cantidad, p.precio, some p.fecha_creacion⟩

/-- Model of `Producto.from_dict`: reconstruct through the validating
constructor, then overwrite the generated timestamp with the persisted one
when present. -/
def Producto.from_dict (d : ProductoDict) (now : String) : Except String Producto := do
  let p ← Producto.crear d.id_producto d.nombre d.cantidad d.precio now
  .ok { p with fecha_creacion := d.fecha_creacion.getD p.fecha_creacion }

/-- Lookup in an insertion-ordered association list (Python `dict` access /
`dict.get`). -/
def dictGet {α : Type} : List (String × α) → String → Option α
  | [], _ => none
  | e :: t, k => if e.1 = k then some e.2 else dictGet t k

/-- Key membership in an association list (Python `k in dict`). -/
def dictHas {α : Type} : List (String × α) → String → Bool
  | [], _ => false
  | e :: t, k => e.1 = k || dictHas t k

/-- Python `dict[k] = v`: overwrite in place when the key exists (keeping
its position), append otherwise. -/
def dictSet {α : Type} : List (String × α) → String → α → List (String × α)
  | [], k, v => [(k, v)]
  | e :: t, k, v => if e.1 = k then (k, v) :: t else e :: dictSet t k v

/-- Python `del dict[k]`. -/
def dictErase {α : Type} : List (String × α) → String → List (String × α)
  | [], _ => []
  | e :: t, k => if e.1 = k then t else e :: dictErase t k

/-- Keys of an association list in insertion order. -/
def dictKeys {α : Type} (d : List (String × α)) : List String :=
  d.map (fun e => e.1)

/-- Values of an association list in insertion order (Python
`dict.values()`). -/
def dictValues {α : Type} (d : List (String × α)) : List α :=
  d.map (fun e => e.2)

/-- Python `set.add` on the duplicate-free list model. -/
def setAdd (s : List String) (x : String) : List String :=
  if x ∈ s then s else s ++ [x]

/-- Python `set.remove` on the duplicate-free list model. -/
def setQuitar (s : List String) (x : String) : List String :=
  s.filter (fun y => ¬ y = x)

/-- Model of the `Inventario` state: primary dict `productos`, id set
`ids_productos`, and the name index `indice_nombres` mapping each
normalized name to the ordered ids sharing it.  The persistence file path
is not part of the state; the file content is passed explicitly. -/
structure Inventario where
  productos : List (String × Producto)
  ids_productos : List String
  indice_nombres : List (String × List String)
deriving DecidableEq, Repr

/-- The state `Inventario.__init__` builds before `cargar_inventario`. -/
def inventario_vacio : Inventario := ⟨[], [], []⟩

/-- Model of `Inventario._normalizar_nombre`: `nombre.lower().strip()`. -/
def normalizar_nombre (nombre : String) : String :=
  pyStrip (pyLower nombre)

/-- Model of `Inventario._actualizar_indice_nombres`: create the bucket for
the product's normalized name if missing, then append the id unless already
present. -/
def actualizar_indice_nombres (indice : List (String × List String))
    (producto : Producto) : List (String × List String) :=
  let nombre_norm := normalizar_nombre producto.nombre
  let indice' := if dictHas indice nombre_norm then indice
                 else dictSet indice nombre_norm []
  let cubeta := (dictGet indice' nombre_norm).getD []
  if producto.id_producto ∈ cubeta then indice'
  else dictSet indice' nombre_norm (cubeta ++ [producto.id_producto])

/-- Model of `Inventario._remover_de_indice_nombres`: remove the id from
the bucket of the product's normalized name, deleting the bucket if it
becomes empty. -/
def remover_de_indice_nombres (indice : List (String × List String))
    (producto : Producto) : List (String × List String) :=
  let nombre_norm := normalizar_nombre producto.nombre
  match dictGet indice nombre_norm with
  | none => indice
  | some cubeta =>
    let cubeta' := if producto.id_producto ∈ cubeta then
                     cubeta.erase producto.id_producto
                   else cubeta
    if cubeta' = [] then dictErase indice nombre_norm
    else dictSet indice nombre_norm cubeta'

/-- Model of `Inventario.agregar_producto`: fail when the id is already in
the id set, otherwise insert into all three structures. -/
def agregar_producto (inv : Inventario) (producto : Producto) :
    Bool × Inventario :=
  if producto.id_producto ∈ inv.ids_productos then (false, inv)
  else
    (true,
     { productos := dictSet inv.productos producto.id_producto producto,
       ids_productos := setAdd inv.ids_productos producto.id_producto,
       indice_nombres := actualizar_indice_nombres inv.indice_nombres producto })

/-- Model of `Inventario.eliminar_producto`: normalize the id, fail when
unknown, otherwise delete from all three structures.  (When the id is in
the set but not the dict Python would raise `KeyError`; that state is
unreachable because `ids_productos` always mirrors the dict keys.) -/
def eliminar_producto (inv : Inventario) (id_producto : String) :
    Bool × Inventario :=
  let id_norm := pyStrip (pyUpper id_producto)
  if id_norm ∈ inv.ids_productos then
    match dictGet inv.productos id_norm with
    | some producto =>
      (true,
       { productos := dictErase inv.productos id_norm,
         ids_productos := setQuitar inv.ids_productos id_norm,
         indice_nombres := remover_de_indice_nombres inv.indice_nombres producto })
    | none => (false, inv)
  else (false, inv)

/-- Model of `Inventario.actualizar_cantidad`: normalize the id, fail when
unknown or when the new quantity fails validation, otherwise mutate. -/
def actualizar_cantidad (inv : Inventario) (id_producto : String)
    (nueva_cantidad : Int) : Bool × Inventario :=
  let id_norm := pyStrip (pyUpper id_producto)
  match dictGet inv.productos id_norm with
  | none => (false, inv)
  | some p =>
    match validar_cantidad nueva_cantidad with
    | .error _ => (false, inv)
    | .ok c =>
      (true, { inv with productos := dictSet inv.productos id_norm { p with cantidad := c } })

/-- Model of `Inventario.actualizar_precio`: same contract for the price. -/
def actualizar_precio (inv : Inventario) (id_producto : String)
    (nuevo_precio : ℚ) : Bool × Inventario :=
  let id_norm := pyStrip (pyUpper id_producto)
  match dictGet inv.productos id_norm with
  | none => (false, inv)
  | some p =>
    match validar_precio nuevo_precio with
    | .error _ => (false, inv)
    | .ok pr =>
      (true, { inv with productos := dictSet inv.productos id_norm { p with precio := pr } })

/-- Model of `Inventario.buscar_por_nombre`: exact bucket lookup first;
when that collected nothing, scan every bucket whose key contains the
normalized query as a substring. -/
def buscar_por_nombre (inv : Inventario) (nombre : String) : List Producto :=
  let nombre_busqueda := normalizar_nombre nombre
  let encontrados :=
    match dictGet inv.indice_nombres nombre_busqueda with
    | some ids => ids.filterMap (fun i => dictGet inv.productos i)
    | none => []
  if encontrados = [] then
    (inv.indice_nombres.filter (fun e => pyContiene e.1 nombre_busqueda)).flatMap
      (fun e => e.2.filterMap (fun i => dictGet inv.productos i))
  else encontrados

/-- Model of `Inventario.obtener_producto_por_id`. -/
def obtener_producto_por_id (inv : Inventario) (id_producto : String) :
    Option Producto :=
  dictGet inv.productos (pyStrip (pyUpper id_producto))

/-- Result record of `Inventario.obtener_estadisticas`. -/
structure Estadisticas where
  total_productos : Nat
  valor_total_inventario : ℚ
  producto_mas_caro : Option Producto
  producto_mas_barato : Option Producto
  stock_total : Int
deriving DecidableEq, Repr

/-- Python `max(productos, key=precio)`: first product of maximal price. -/
def maxPorPrecio (p : Producto) (ps : List Producto) : Producto :=
  ps.foldl (fun mejor q => if mejor.precio < q.precio then q else mejor) p

/-- Python `min(productos, key=precio)`: first product of minimal price. -/
def minPorPrecio (p : Producto) (ps : List Producto) : Producto :=
  ps.foldl (fun mejor q => if q.precio < mejor.precio then q else mejor) p

/-- Model of `Inventario.obtener_estadisticas`. -/
def obtener_estadisticas (inv : Inventario) : Estadisticas :=
  match dictValues inv.productos with
  | [] => ⟨0, 0, none, none, 0⟩
  | p :: ps =>
    ⟨(p :: ps).length,
     ((p :: ps).map (fun q => q.calcular_valor_total)).foldl (· + ·) 0,
     some (maxPorPrecio p ps),
     some (minPorPrecio p ps),
     ((p :: ps).map (fun q => q.cantidad)).foldl (· + ·) 0⟩

/-- The persisted JSON object written by `guardar_inventario`. -/
structure DatosGuardados where
  productos : List ProductoDict
  fecha_guardado : String
  version : String
deriving DecidableEq, Repr

/-- Model of `Inventario.guardar_inventario` without I/O failure: serialize
the products in dict iteration order with the save timestamp and version
tag. -/
def guardar_inventario (inv : Inventario) (now : String) : Bool × DatosGuardados :=
  (true,
   ⟨(dictValues inv.productos).map (fun p => p.to_dict), now, "1.0"⟩)

/-- Content of the configured persistence file as `cargar_inventario`
observes it: absent, present but unparseable, or parsed. -/
inductive Archivo where
  | ausente
  | malformado
  | datos (d : DatosGuardados)
deriving DecidableEq, Repr

/-- One step of the load loop: reconstruct the record and insert into all
three structures; a record failing validation is logged and skipped. -/
def cargar_registro (inv : Inventario) (d : ProductoDict) (now : String) :
    Inventario :=
  match Producto.from_dict d now with
  | .error _ => inv
  | .ok producto =>
    { productos := dictSet inv.productos producto.id_producto producto,
      ids_productos := setAdd inv.ids_productos producto.id_producto,
      indice_nombres := actualizar_indice_nombres inv.indice_nombres producto }

/-- Model of `Inventario.cargar_inventario`: a missing file succeeds
without touching the store; an unparseable file fails without touching the
store (the clear happens only after a successful parse); a parsed file
clears the store and loads each record, skipping invalid ones. -/
def cargar_inventario (inv : Inventario) (archivo : Archivo) (now : String) :
    Bool × Inventario :=
  match archivo with
  | .ausente => (true, inv)
  | .malformado => (false, inv)
  | .datos d =>
    (true, d.productos.foldl (fun acc r => cargar_registro acc r now) inventario_vacio)

/-- Model of `Inventario.__len__`. -/
def longitud (inv : Inventario) : Nat := inv.productos.length

/-- Model of `Inventario.__contains__`. -/
def contiene (inv : Inventario) (id_producto : String) : Bool :=
  pyStrip (pyUpper id_producto) ∈ inv.ids_productos

/-- The store operations the console layer can perform on a loaded store,
used to describe reachable states. -/
inductive Op where
  | agregar (p : Producto)
  | eliminar (id_producto : String)
  | cantidad (id_producto : String) (nueva : Int)
  | precio (id_producto : String) (nuevo : ℚ)

/-- Apply one operation, keeping the resulting state. -/
def aplicar (inv : Inventario) : Op → Inventario
  | .agregar p => (agregar_producto inv p).2
  | .eliminar i => (eliminar_producto inv i).2
  | .cantidad i c => (actualizar_cantidad inv i c).2
  | .precio i pr => (actualizar_precio inv i pr).2

/-- Run a sequence of operations from the empty store. -/
def ejecutar (ops : List Op) : Inventario :=
  ops.foldl aplicar inventario_vacio

/-- A product is well formed when each field is a fixed point of its own
validation (exactly what `Producto.__init__` guarantees) and its normalized
name is non-blank. -/
def ProductoWF (p : Producto) : Prop :=
  validar_id p.id_producto = .ok p.id_producto ∧
  validar_nombre p.nombre = .ok p.nombre ∧
  validar_cantidad p.cantidad = .ok p.cantidad ∧
  validar_precio p.precio = .ok p.precio ∧
  normalizar_nombre p.nombre ≠ ""

deriving instance DecidableEq for Except

instance (p : Producto) : Decidable (ProductoWF p) := by
  unfold ProductoWF; infer_instance

/-- An operation is well formed when any product it adds is well formed;
in the program every added product comes from the validating constructor. -/
def OpWF : Op → Prop
  | .agregar p => ProductoWF p
  | _ => True

instance (op : Op) : Decidable (OpWF op) := by
  cases op <;> (unfold OpWF; infer_instance)

/-! ### Association-list and set lemmas -/

section DictLemmas

variable {α : Type}

theorem mem_dictKeys {d : List (String × α)} {k : String} :
    k ∈ dictKeys d ↔ ∃ v, (k, v) ∈ d := by
  simp only [dictKeys, List.mem_map]
  constructor
  · rintro ⟨⟨a, b⟩, hm, rfl⟩; exact ⟨b, hm⟩
  · rintro ⟨v, hv⟩; exact ⟨(k, v), hv, rfl⟩

theorem mem_dictKeys_of_mem {d : List (String × α)} {k : String} {v : α}
    (h : (k, v) ∈ d) : k ∈ dictKeys d :=
  mem_dictKeys.mpr ⟨v, h⟩

theorem dictHas_iff {d : List (String × α)} {k : String} :
    dictHas d k = true ↔ k ∈ dictKeys d := by
  induction d with
  | nil => simp [dictHas, dictKeys]
  | cons e t ih =>
    simp only [dictHas, dictKeys, List.map_cons, List.mem_cons,
      Bool.or_eq_true, decide_eq_true_eq]
    rw [ih, eq_comm]
    rfl

theorem dictGet_eq_none {d : List (String × α)} {k : String} :
    dictGet d k = none ↔ k ∉ dictKeys d := by
  induction d with
  | nil => simp [dictGet, dictKeys]
  | cons e t ih =>
    simp only [dictGet, dictKeys, List.map_cons, List.mem_cons]
    by_cases he : e.1 = k
    · simp [he]
    · simp only [if_neg he]
      rw [ih]
      constructor
      · rintro h (h1 | h1)
        · exact he h1.symm
        · exact h (by simpa [dictKeys] using h1)
      · intro h hm
        exact h (Or.inr (by simpa [dictKeys] using hm))

theorem dictGet_mem {d : List (String × α)} {k : String} {v : α}
    (h : dictGet d k = some v) : (k, v) ∈ d := by
  induction d with
  | nil => cases h
  | cons e t ih =>
    rw [dictGet] at h
    by_cases he : e.1 = k
    · rw [if_pos he] at h
      obtain ⟨e1, e2⟩ := e
      cases he
      cases h
      exact List.mem_cons_self _ _
    · rw [if_neg he] at h
      exact List.mem_cons_of_mem _ (ih h)

theorem dictGet_isSome {d : List (String × α)} {k : String}
    (h : k ∈ dictKeys d) : ∃ v, dictGet d k = some v := by
  cases hg : dictGet d k with
  | none => exact absurd (dictGet_eq_none.mp hg) (by simpa using h)
  | some v => exact ⟨v, rfl⟩

theorem nodup_key_eq {d : List (String × α)} (nd : (dictKeys d).Nodup)
    {k : String} {a b : α} (ha : (k, a) ∈ d) (hb : (k, b) ∈ d) : a = b := by
  induction d with
  | nil => cases ha
  | cons e t ih =>
    obtain ⟨ek, ev⟩ := e
    simp only [dictKeys, List.map_cons, List.nodup_cons] at nd
    have hkeys : ∀ {c : α}, (k, c) ∈ t → k ∈ dictKeys t :=
      fun h => mem_dictKeys_of_mem h
    rcases List.mem_cons.mp ha with h1 | h1 <;>
      rcases List.mem_cons.mp hb with h2 | h2
    · cases h1; cases (Prod.mk.injEq _ _ _ _ ▸ h2 : _ ∧ _).2.symm; rfl
    · cases h1
      exact absurd (by simpa [dictKeys] using hkeys h2) nd.1
    · cases h2
      exact absurd (by simpa [dictKeys] using hkeys h1) nd.1
    · exact ih nd.2 h1 h2

theorem dictGet_eq_some_iff {d : List (String × α)} (nd : (dictKeys d).Nodup)
    {k : String} {v : α} : dictGet d k = some v ↔ (k, v) ∈ d := by
  constructor
  · exact dictGet_mem
  · intro hm
    obtain ⟨w, hw⟩ := dictGet_isSome (mem_dictKeys_of_mem hm)
    have := nodup_key_eq nd (dictGet_mem hw) hm
    rw [hw, this]

theorem dictGet_dictSet_self {d : List (String × α)} {k : String} {v : α} :
    dictGet (dictSet d k v) k = some v := by
  induction d with
  | nil => simp [dictSet, dictGet]
  | cons e t ih =>
    rw [dictSet]
    by_cases he : e.1 = k
    · rw [if_pos he, dictGet, if_pos rfl]
    · rw [if_neg he, dictGet, if_neg he]
      exact ih

theorem dictGet_dictSet_ne {d : List (String × α)} {k k' : String} {v : α}
    (h : ¬ k' = k) : dictGet (dictSet d k v) k' = dictGet d k' := by
  have hkk : ¬ k = k' := fun hk => h hk.symm
  induction d with
  | nil =>
    simp only [dictSet, dictGet, if_neg hkk]
  | cons e t ih =>
    rw [dictSet]
    by_cases he : e.1 = k
    · have hek : ¬ e.1 = k' := fun h1 => h (he ▸ h1).symm
      rw [if_pos he, dictGet, dictGet, if_neg hkk, if_neg hek]
    · rw [if_neg he, dictGet, dictGet]
      by_cases h1 : e.1 = k'
      · rw [if_pos h1, if_pos h1]
      · rw [if_neg h1, if_neg h1]
        exact ih

theorem mem_dictKeys_dictSet {d : List (String × α)} {k k' : String} {v : α} :
    k' ∈ dictKeys (dictSet d k v) ↔ k' ∈ dictKeys d ∨ k' = k := by
  induction d with
  | nil => simp [dictSet, dictKeys, eq_comm]
  | cons e t ih =>
    rw [dictSet]
    by_cases he : e.1 = k
    · rw [if_pos he]
      subst he
      simp only [dictKeys, List.map_cons, List.mem_cons]
      tauto
    · rw [if_neg he]
      simp only [dictKeys, List.map_cons, List.mem_cons] at *
      rw [ih]
      tauto

theorem mem_dictSet_iff {d : List (String × α)} (nd : (dictKeys d).Nodup)
    {k k' : String} {v v' : α} :
    (k', v') ∈ dictSet d k v ↔
      (k' = k ∧ v' = v) ∨ ((k', v') ∈ d ∧ ¬ k' = k) := by
  induction d with
  | nil => simp [dictSet, Prod.ext_iff]
  | cons e t ih =>
    simp only [dictKeys, List.map_cons, List.nodup_cons] at nd
    rw [dictSet]
    by_cases he : e.1 = k
    · rw [if_pos he]
      simp only [List.mem_cons, Prod.mk.injEq]
      constructor
      · rintro (⟨h1, h2⟩ | h1)
        · exact Or.inl ⟨h1, h2⟩
        · refine Or.inr ⟨Or.inr h1, fun hk => ?_⟩
          subst hk
          exact nd.1 (he ▸ (by simpa [dictKeys] using mem_dictKeys_of_mem h1))
      · rintro (⟨h1, h2⟩ | ⟨h1, h2⟩)
        · exact Or.inl ⟨h1, h2⟩
        · rcases h1 with h3 | h3
          · exact absurd (he ▸ congrArg Prod.fst h3).symm fun hh => h2 hh.symm
          · exact Or.inr h3
    · rw [if_neg he]
      simp only [List.mem_cons]
      rw [ih nd.2]
      constructor
      · rintro (h1 | h1)
        · have hfst : k' = e.1 := congrArg Prod.fst h1
          exact Or.inr ⟨Or.inl h1, fun hk => he (hfst.symm.trans hk)⟩
        · rcases h1 with h2 | ⟨h2, h3⟩
          · exact Or.inl h2
          · exact Or.inr ⟨Or.inr h2, h3⟩
      · rintro (⟨h1, h2⟩ | ⟨h1 | h1, h2⟩)
        · exact Or.inr (Or.inl ⟨h1, h2⟩)
        · exact Or.inl h1
        · exact Or.inr (Or.inr ⟨h1, h2⟩)

theorem nodup_dictKeys_dictSet {d : List (String × α)} {k : String} {v : α}
    (nd : (dictKeys d).Nodup) : (dictKeys (dictSet d k v)).Nodup := by
  induction d with
  | nil => simp [dictSet, dictKeys]
  | cons e t ih =>
    simp only [dictKeys, List.map_cons, List.nodup_cons] at nd
    rw [dictSet]
    by_cases he : e.1 = k
    · rw [if_pos he]
      simp only [dictKeys, List.map_cons, List.nodup_cons]
      exact ⟨he ▸ nd.1, nd.2⟩
    · rw [if_neg he]
      simp only [dictKeys, List.map_cons, List.nodup_cons]
      refine ⟨fun hm => ?_, ih nd.2⟩
      have hm' : e.1 ∈ dictKeys (dictSet t k v) := by simpa [dictKeys] using hm
      rcases mem_dictKeys_dictSet.mp hm' with h | h
      · exact nd.1 (by simpa [dictKeys] using h)
      · exact he h

theorem dictGet_dictErase_self {d : List (String × α)}
    (nd : (dictKeys d).Nodup) {k : String} :
    dictGet (dictErase d k) k = none := by
  induction d with
  | nil => rfl
  | cons e t ih =>
    simp only [dictKeys, List.map_cons, List.nodup_cons] at nd
    rw [dictErase]
    by_cases he : e.1 = k
    · rw [if_pos he]
      exact dictGet_eq_none.mpr (he ▸ nd.1)
    · rw [if_neg he, dictGet, if_neg he]
      exact ih nd.2

theorem dictGet_dictErase_ne {d : List (String × α)} {k k' : String}
    (h : ¬ k' = k) : dictGet (dictErase d k) k' = dictGet d k' := by
  induction d with
  | nil => rfl
  | cons e t ih =>
    rw [dictErase]
    by_cases he : e.1 = k
    · rw [if_pos he, dictGet, if_neg (he ▸ fun h1 : e.1 = k' => h (he ▸ h1).symm)]
    · rw [if_neg he, dictGet, dictGet]
      by_cases h1 : e.1 = k'
      · rw [if_pos h1, if_pos h1]
      · rw [if_neg h1, if_neg h1]
        exact ih

theorem mem_dictErase_iff {d : List (String × α)} (nd : (dictKeys d).Nodup)
    {k k' : String} {v' : α} :
    (k', v') ∈ dictErase d k ↔ (k', v') ∈ d ∧ ¬ k' = k := by
  induction d with
  | nil => simp [dictErase]
  | cons e t ih =>
    simp only [dictKeys, List.map_cons, List.nodup_cons] at nd
    rw [dictErase]
    by_cases he : e.1 = k
    · rw [if_pos he]
      simp only [List.mem_cons]
      constructor
      · intro h1
        refine ⟨Or.inr h1, fun hk => ?_⟩
        subst hk
        exact nd.1 (he ▸ (by simpa [dictKeys] using mem_dictKeys_of_mem h1))
      · rintro ⟨h1 | h1, h2⟩
        · exact absurd (he ▸ congrArg Prod.fst h1).symm fun hh => h2 hh.symm
        · exact h1
    · rw [if_neg he]
      simp only [List.mem_cons]
      rw [ih nd.2]
      constructor
      · rintro (h1 | ⟨h2, h3⟩)
        · exact ⟨Or.inl h1, fun hk => he (by rw [← hk, ← h1])⟩
        · exact ⟨Or.inr h2, h3⟩
      · rintro ⟨h1 | h1, h2⟩
        · exact Or.inl h1
        · exact Or.inr ⟨h1, h2⟩

theorem mem_dictKeys_dictErase {d : List (String × α)}
    (nd : (dictKeys d).Nodup) {k k' : String} :
    k' ∈ dictKeys (dictErase d k) ↔ k' ∈ dictKeys d ∧ ¬ k' = k := by
  simp only [mem_dictKeys]
  constructor
  · rintro ⟨v, hv⟩
    rcases (mem_dictErase_iff nd).mp hv with ⟨h1, h2⟩
    exact ⟨⟨v, h1⟩, h2⟩
  · rintro ⟨⟨v, hv⟩, h2⟩
    exact ⟨v, (mem_dictErase_iff nd).mpr ⟨hv, h2⟩⟩

theorem nodup_dictKeys_dictErase {d : List (String × α)} {k : String}
    (nd : (dictKeys d).Nodup) : (dictKeys (dictErase d k)).Nodup := by
  induction d with
  | nil => exact List.nodup_nil
  | cons e t ih =>
    simp only [dictKeys, List.map_cons, List.nodup_cons] at nd
    rw [dictErase]
    by_cases he : e.1 = k
    · rw [if_pos he]; exact nd.2
    · rw [if_neg he]
      simp only [dictKeys, List.map_cons, List.nodup_cons]
      refine ⟨fun hm => ?_, ih nd.2⟩
      have := (mem_dictKeys_dictErase nd.2).mp (by simpa [dictKeys] using hm)
      exact nd.1 (by simpa [dictKeys] using this.1)

theorem mem_setAdd_iff {s : List String} {x y : String} :
    y ∈ setAdd s x ↔ y ∈ s ∨ y = x := by
  rw [setAdd]
  split
  · constructor
    · exact Or.inl
    · rintro (h | rfl)
      · exact h
      · assumption
  · simp

theorem nodup_setAdd {s : List String} {x : String} (nd : s.Nodup) :
    (setAdd s x).Nodup := by
  rw [setAdd]
  split
  · exact nd
  · rw [List.nodup_append]
    exact ⟨nd, List.nodup_singleton x, by simpa using ‹x ∉ s›⟩

theorem mem_setQuitar_iff {s : List String} {x y : String} :
    y ∈ setQuitar s x ↔ y ∈ s ∧ ¬ y = x := by
  simp [setQuitar, List.mem_filter]

theorem nodup_setQuitar {s : List String} {x : String} (nd : s.Nodup) :
    (setQuitar s x).Nodup := List.Nodup.filter _ nd

end DictLemmas

/-! ### The store invariant -/

/-- Every name bucket is non-empty, duplicate-free, and holds only live
product ids. -/
def BucketsOK (inv : Inventario) : Prop :=
  ∀ e ∈ inv.indice_nombres, e.2 ≠ [] ∧ e.2.Nodup ∧
    ∀ i ∈ e.2, i ∈ dictKeys inv.productos

/-- Every stored product appears in the bucket of its own normalized name
and in no other bucket. -/
def Indexed (inv : Inventario) : Prop :=
  ∀ k p, (k, p) ∈ inv.productos →
    (∀ e ∈ inv.indice_nombres, k ∈ e.2 ↔ e.1 = normalizar_nombre p.nombre) ∧
    ∃ b, (normalizar_nombre p.nombre, b) ∈ inv.indice_nombres ∧ k ∈ b

/-- The structural invariant tying the three collections together. -/
def Invariante (inv : Inventario) : Prop :=
  (dictKeys inv.productos).Nodup ∧
  inv.ids_productos.Nodup ∧
  (∀ x, x ∈ inv.ids_productos ↔ x ∈ dictKeys inv.productos) ∧
  (∀ k p, (k, p) ∈ inv.productos → p.id_producto = k) ∧
  (dictKeys inv.indice_nombres).Nodup ∧
  BucketsOK inv ∧
  Indexed inv

theorem invariante_vacio : Invariante inventario_vacio := by
  refine ⟨List.nodup_nil, List.nodup_nil, ?_, ?_, List.nodup_nil, ?_, ?_⟩
  · intro x; simp [inventario_vacio, dictKeys]
  · intro k p h; cases h
  · intro e h; cases h
  · intro k p h; cases h

/-- Behaviour of `_actualizar_indice_nombres` when the id is not yet in the
target bucket (`b0` is the existing bucket, `[]` when absent). -/
theorem actualizar_spec {N : List (String × List String)} {p : Producto}
    (nd : (dictKeys N).Nodup)
    (hnotin : p.id_producto ∉ ((dictGet N (normalizar_nombre p.nombre)).getD [])) :
    (dictKeys (actualizar_indice_nombres N p)).Nodup ∧
    dictGet (actualizar_indice_nombres N p) (normalizar_nombre p.nombre) =
      some (((dictGet N (normalizar_nombre p.nombre)).getD []) ++ [p.id_producto]) ∧
    (∀ k, ¬ k = normalizar_nombre p.nombre →
      dictGet (actualizar_indice_nombres N p) k = dictGet N k) ∧
    (∀ e, e ∈ actualizar_indice_nombres N p ↔
      ((e ∈ N ∧ ¬ e.1 = normalizar_nombre p.nombre) ∨
        e = (normalizar_nombre p.nombre,
          ((dictGet N (normalizar_nombre p.nombre)).getD []) ++ [p.id_producto]))) := by
  set nn := normalizar_nombre p.nombre with hnn
  by_cases hk : nn ∈ dictKeys N
  · obtain ⟨b, hb⟩ := dictGet_isSome hk
    have hN' : actualizar_indice_nombres N p = dictSet N nn (b ++ [p.id_producto]) := by
      rw [actualizar_indice_nombres]
      simp only [← hnn, dictHas_iff.mpr hk, if_pos, hb, Option.getD_some]
      rw [if_neg (by simpa [hb] using hnotin)]
    rw [hN', hb]
    simp only [Option.getD_some]
    refine ⟨nodup_dictKeys_dictSet nd, dictGet_dictSet_self, ?_, ?_⟩
    · intro k hkne
      exact dictGet_dictSet_ne hkne
    · intro e
      obtain ⟨e1, e2⟩ := e
      rw [mem_dictSet_iff nd]
      simp only [Prod.mk.injEq, Prod.ext_iff]
      tauto
  · have hget : dictGet N nn = none := dictGet_eq_none.mpr hk
    have hnd1 : (dictKeys (dictSet N nn ([] : List String))).Nodup :=
      nodup_dictKeys_dictSet nd
    have hN' : actualizar_indice_nombres N p =
        dictSet (dictSet N nn []) nn [p.id_producto] := by
      rw [actualizar_indice_nombres]
      simp only [← hnn]
      rw [if_neg (fun h => hk (dictHas_iff.mp h))]
      rw [dictGet_dictSet_self]
      simp [Option.getD_some]
    rw [hN', hget]
    simp only [Option.getD_none, List.nil_append]
    refine ⟨nodup_dictKeys_dictSet hnd1, dictGet_dictSet_self, ?_, ?_⟩
    · intro k hkne
      rw [dictGet_dictSet_ne hkne, dictGet_dictSet_ne hkne]
    · intro e
      obtain ⟨e1, e2⟩ := e
      rw [mem_dictSet_iff hnd1]
      constructor
      · rintro (⟨rfl, rfl⟩ | ⟨hm, hne⟩)
        · exact Or.inr rfl
        · rcases (mem_dictSet_iff nd).mp hm with ⟨h1, h2⟩ | ⟨h1, h2⟩
          · exact absurd h1 hne
          · exact Or.inl ⟨h1, h2⟩
      · rintro (⟨hm, hne⟩ | he)
        · exact Or.inr ⟨(mem_dictSet_iff nd).mpr (Or.inr ⟨hm, hne⟩), hne⟩
        · rw [Prod.ext_iff] at he
          exact Or.inl ⟨he.1, he.2⟩

/-- Behaviour of `_remover_de_indice_nombres` when the bucket of the
product's normalized name is `b` and contains the id. -/
theorem remover_spec {N : List (String × List String)} {p : Producto}
    {b : List String} (nd : (dictKeys N).Nodup)
    (hb : dictGet N (normalizar_nombre p.nombre) = some b) :
    (dictKeys (remover_de_indice_nombres N p)).Nodup ∧
    dictGet (remover_de_indice_nombres N p) (normalizar_nombre p.nombre) =
      (if b.erase p.id_producto = [] then none else some (b.erase p.id_producto)) ∧
    (∀ k, ¬ k = normalizar_nombre p.nombre →
      dictGet (remover_de_indice_nombres N p) k = dictGet N k) ∧
    (∀ e, e ∈ remover_de_indice_nombres N p ↔
      ((e ∈ N ∧ ¬ e.1 = normalizar_nombre p.nombre) ∨
        (¬ b.erase p.id_producto = [] ∧ e = (normalizar_nombre p.nombre, b.erase p.id_producto)))) := by
  set nn := normalizar_nombre p.nombre with hnn
  have hb' : (if p.id_producto ∈ b then b.erase p.id_producto else b) = b.erase p.id_producto := by
    by_cases hin : p.id_producto ∈ b
    · rw [if_pos hin]
    · rw [if_neg hin, List.erase_of_not_mem hin]
  have hN' : remover_de_indice_nombres N p =
      (if b.erase p.id_producto = [] then dictErase N nn
       else dictSet N nn (b.erase p.id_producto)) := by
    rw [remover_de_indice_nombres]
    simp only [← hnn, hb, hb']
  by_cases hvacia : b.erase p.id_producto = []
  · rw [hN', if_pos hvacia]
    refine ⟨nodup_dictKeys_dictErase nd, ?_, ?_, ?_⟩
    · rw [if_pos hvacia]
      exact dictGet_dictErase_self nd
    · intro k hkne
      exact dictGet_dictErase_ne hkne
    · intro e
      obtain ⟨e1, e2⟩ := e
      rw [mem_dictErase_iff nd]
      simp [hvacia]
  · rw [hN', if_neg hvacia]
    refine ⟨nodup_dictKeys_dictSet nd, ?_, ?_, ?_⟩
    · rw [if_neg hvacia]
      exact dictGet_dictSet_self
    · intro k hkne
      exact dictGet_dictSet_ne hkne
    · intro e
      obtain ⟨e1, e2⟩ := e
      rw [mem_dictSet_iff nd]
      simp only [Prod.mk.injEq, Prod.ext_iff]
      tauto

theorem invariante_agregar {inv : Inventario} (h : Invariante inv)
    (p : Producto) : Invariante (agregar_producto inv p).2 := by
  obtain ⟨nd1, nd2, hsync, hid, nd3, hbk, hix⟩ := h
  rw [agregar_producto]
  by_cases hmem : p.id_producto ∈ inv.ids_productos
  · rw [if_pos hmem]
    exact ⟨nd1, nd2, hsync, hid, nd3, hbk, hix⟩
  · rw [if_neg hmem]
    set nn := normalizar_nombre p.nombre with hnn
    set idp := p.id_producto with hidp
    have hknot : idp ∉ dictKeys inv.productos := fun hk => hmem ((hsync _).mpr hk)
    have hnotin : idp ∉ (dictGet inv.indice_nombres nn).getD [] := by
      cases hg : dictGet inv.indice_nombres nn with
      | none => simp
      | some b =>
        intro hin
        exact hknot ((hbk _ (dictGet_mem hg)).2.2 _ (by simpa using hin))
    obtain ⟨ndN, hgself, hgne, hmemN⟩ := actualizar_spec (p := p) nd3 hnotin
    set b0 := (dictGet inv.indice_nombres nn).getD [] with hb0
    have hb0nodup : b0.Nodup := by
      rw [hb0]
      cases hg : dictGet inv.indice_nombres nn with
      | none => simp
      | some b => simpa using (hbk _ (dictGet_mem hg)).2.1
    have hb0sub : ∀ i ∈ b0, i ∈ dictKeys inv.productos := by
      rw [hb0]
      cases hg : dictGet inv.indice_nombres nn with
      | none => simp
      | some b =>
        intro i hi
        exact (hbk _ (dictGet_mem hg)).2.2 _ (by simpa using hi)
    refine ⟨nodup_dictKeys_dictSet nd1, nodup_setAdd nd2, ?_, ?_, ndN, ?_, ?_⟩
    · intro x
      rw [mem_setAdd_iff, mem_dictKeys_dictSet, hsync]
    · intro k q hkq
      rcases (mem_dictSet_iff nd1).mp hkq with ⟨rfl, rfl⟩ | ⟨hold, -⟩
      · rfl
      · exact hid _ _ hold
    · intro e he
      rcases (hmemN e).mp he with ⟨holde, hnne⟩ | rfl
      · obtain ⟨h1, h2, h3⟩ := hbk e holde
        exact ⟨h1, h2, fun i hi => mem_dictKeys_dictSet.mpr (Or.inl (h3 i hi))⟩
      · refine ⟨by simp, ?_, ?_⟩
        · rw [List.nodup_append]
          exact ⟨hb0nodup, List.nodup_singleton _, by simpa using hnotin⟩
        · intro i hi
          rcases List.mem_append.mp hi with hi1 | hi1
          · exact mem_dictKeys_dictSet.mpr (Or.inl (hb0sub i hi1))
          · rw [List.mem_singleton] at hi1
            exact mem_dictKeys_dictSet.mpr (Or.inr hi1)
    · intro k q hkq
      rcases (mem_dictSet_iff nd1).mp hkq with ⟨rfl, rfl⟩ | ⟨hold, hkne⟩
      · constructor
        · intro e he
          rcases (hmemN e).mp he with ⟨holde, hnne⟩ | rfl
          · constructor
            · intro hin
              exact absurd ((hbk e holde).2.2 _ hin) hknot
            · intro h1
              exact absurd h1 hnne
          · simp
        · exact ⟨b0 ++ [idp], (hmemN _).mpr (Or.inr rfl), by simp⟩
      · obtain ⟨hiffq, bq, hbq, hkbq⟩ := hix k q hold
        constructor
        · intro e he
          rcases (hmemN e).mp he with ⟨holde, hnne⟩ | rfl
          · exact hiffq e holde
          · simp only [List.mem_append, List.mem_singleton]
            constructor
            · rintro (hin | rfl)
              · rw [hb0] at hin
                cases hg : dictGet inv.indice_nombres nn with
                | none => rw [hg] at hin; cases hin
                | some b =>
                  rw [hg] at hin
                  exact (hiffq _ (dictGet_mem hg)).mp (by simpa using hin)
              · exact absurd rfl hkne
            · intro hnq
              refine Or.inl ?_
              rw [hb0]
              have hnnk : nn ∈ dictKeys inv.indice_nombres := by
                show normalizar_nombre p.nombre ∈ dictKeys inv.indice_nombres
                rw [hnq]; exact mem_dictKeys_of_mem hbq
              obtain ⟨b, hgb⟩ := dictGet_isSome hnnk
              rw [hgb]
              have hbqmem : (nn, bq) ∈ inv.indice_nombres := by
                show (normalizar_nombre p.nombre, bq) ∈ inv.indice_nombres
                rw [hnq]; exact hbq
              have hbqb : bq = b :=
                nodup_key_eq nd3 hbqmem (dictGet_mem hgb)
              simpa using hbqb ▸ hkbq
        · by_cases hqn : normalizar_nombre q.nombre = nn
          · refine ⟨b0 ++ [idp], by rw [hqn]; exact (hmemN _).mpr (Or.inr rfl), ?_⟩
            have hnnk : nn ∈ dictKeys inv.indice_nombres := by
              rw [← hqn]; exact mem_dictKeys_of_mem hbq
            obtain ⟨b, hgb⟩ := dictGet_isSome hnnk
            have hbqmem : (nn, bq) ∈ inv.indice_nombres := by
              rw [← hqn]; exact hbq
            have hbqb : bq = b := nodup_key_eq nd3 hbqmem (dictGet_mem hgb)
            rw [hb0, hgb]
            simp only [Option.getD_some, List.mem_append]
            exact Or.inl (hbqb ▸ hkbq)
          · exact ⟨bq, (hmemN _).mpr (Or.inl ⟨hbq, hqn⟩), hkbq⟩

theorem invariante_eliminar {inv : Inventario} (h : Invariante inv)
    (id_producto : String) : Invariante (eliminar_producto inv id_producto).2 := by
  obtain ⟨nd1, nd2, hsync, hid, nd3, hbk, hix⟩ := h
  rw [eliminar_producto]
  set nid := pyStrip (pyUpper id_producto) with hnid
  by_cases hmem : nid ∈ inv.ids_productos
  · rw [if_pos hmem]
    have hkey : nid ∈ dictKeys inv.productos := (hsync _).mp hmem
    obtain ⟨p, hp⟩ := dictGet_isSome hkey
    rw [hp]
    have hpP : (nid, p) ∈ inv.productos := dictGet_mem hp
    obtain ⟨hiffp, b, hbN, hpb⟩ := hix nid p hpP
    have hpid : p.id_producto = nid := hid _ _ hpP
    have hgetb : dictGet inv.indice_nombres (normalizar_nombre p.nombre) = some b :=
      (dictGet_eq_some_iff nd3).mpr hbN
    obtain ⟨bne, bnd, bsub⟩ := hbk _ hbN
    obtain ⟨ndN, hgself, hgne, hmemN⟩ := remover_spec (p := p) nd3 hgetb
    have herase : ∀ i, i ∈ b.erase p.id_producto ↔ (i ≠ p.id_producto ∧ i ∈ b) := by
      intro i
      exact List.Nodup.mem_erase_iff bnd
    refine ⟨nodup_dictKeys_dictErase nd1, nodup_setQuitar nd2, ?_, ?_, ndN, ?_, ?_⟩
    · intro x
      rw [mem_setQuitar_iff, mem_dictKeys_dictErase nd1, hsync]
    · intro k q hkq
      exact hid _ _ ((mem_dictErase_iff nd1).mp hkq).1
    · intro e he
      rcases (hmemN e).mp he with ⟨holde, hnne⟩ | ⟨hne, rfl⟩
      · obtain ⟨h1, h2, h3⟩ := hbk e holde
        refine ⟨h1, h2, fun i hi => (mem_dictKeys_dictErase nd1).mpr ⟨h3 i hi, ?_⟩⟩
        intro hieq
        exact hnne ((hiffp e holde).mp (hieq ▸ hi) ▸ rfl) |>.elim
      · refine ⟨hne, List.Nodup.erase _ bnd, fun i hi => ?_⟩
        rcases (herase i).mp hi with ⟨hine, hinb⟩
        exact (mem_dictKeys_dictErase nd1).mpr ⟨bsub i hinb, hpid ▸ hine⟩
    · intro k q hkq
      obtain ⟨hold, hkne⟩ := (mem_dictErase_iff nd1).mp hkq
      obtain ⟨hiffq, bq, hbq, hkbq⟩ := hix k q hold
      constructor
      · intro e he
        rcases (hmemN e).mp he with ⟨holde, hnne⟩ | ⟨hne, rfl⟩
        · exact hiffq e holde
        · simp only
          rw [herase k]
          constructor
          · rintro ⟨h1, h2⟩
            exact (hiffq _ hbN).mp h2
          · intro hnq
            exact ⟨hpid ▸ hkne, (hiffq _ hbN).mpr hnq⟩
      · by_cases hqn : normalizar_nombre q.nombre = normalizar_nombre p.nombre
        · have hbqb : bq = b := by
            apply nodup_key_eq nd3 _ hbN
            rw [← hqn]; exact hbq
          have hkeb : k ∈ b.erase p.id_producto :=
            (herase k).mpr ⟨hpid ▸ hkne, hbqb ▸ hkbq⟩
          have hnempty : ¬ b.erase p.id_producto = [] :=
            fun hh => by rw [hh] at hkeb; cases hkeb
          exact ⟨b.erase p.id_producto,
            (hmemN _).mpr (Or.inr ⟨hnempty, by rw [hqn]⟩), hkeb⟩
        · exact ⟨bq, (hmemN _).mpr (Or.inl ⟨hbq, hqn⟩), hkbq⟩
  · rw [if_neg hmem]
    exact ⟨nd1, nd2, hsync, hid, nd3, hbk, hix⟩

theorem invariante_actualizar_cantidad {inv : Inventario} (h : Invariante inv)
    (id_producto : String) (nueva : Int) :
    Invariante (actualizar_cantidad inv id_producto nueva).2 := by
  obtain ⟨nd1, nd2, hsync, hid, nd3, hbk, hix⟩ := h
  rw [actualizar_cantidad]
  set nid := pyStrip (pyUpper id_producto) with hnid
  cases hg : dictGet inv.productos nid with
  | none => exact ⟨nd1, nd2, hsync, hid, nd3, hbk, hix⟩
  | some p =>
    cases hv : validar_cantidad nueva with
    | error e => exact ⟨nd1, nd2, hsync, hid, nd3, hbk, hix⟩
    | ok c =>
      have hpP : (nid, p) ∈ inv.productos := dictGet_mem hg
      have hpid : p.id_producto = nid := hid _ _ hpP
      have hkey : nid ∈ dictKeys inv.productos := mem_dictKeys_of_mem hpP
      refine ⟨nodup_dictKeys_dictSet nd1, nd2, ?_, ?_, nd3, ?_, ?_⟩
      · intro x
        rw [hsync, mem_dictKeys_dictSet]
        constructor
        · exact Or.inl
        · rintro (h1 | rfl)
          · exact h1
          · exact hkey
      · intro k q hkq
        rcases (mem_dictSet_iff nd1).mp hkq with ⟨rfl, rfl⟩ | ⟨holdq, -⟩
        · exact hpid
        · exact hid _ _ holdq
      · intro e he
        obtain ⟨h1, h2, h3⟩ := hbk e he
        exact ⟨h1, h2, fun i hi => mem_dictKeys_dictSet.mpr (Or.inl (h3 i hi))⟩
      · intro k q hkq
        rcases (mem_dictSet_iff nd1).mp hkq with ⟨rfl, rfl⟩ | ⟨holdq, -⟩
        · obtain ⟨hiffp, b, hbN, hpb⟩ := hix nid p hpP
          exact ⟨fun e he => hiffp e he, b, hbN, hpb⟩
        · exact hix _ _ holdq

theorem invariante_actualizar_precio {inv : Inventario} (h : Invariante inv)
    (id_producto : String) (nuevo : ℚ) :
    Invariante (actualizar_precio inv id_producto nuevo).2 := by
  obtain ⟨nd1, nd2, hsync, hid, nd3, hbk, hix⟩ := h
  rw [actualizar_precio]
  set nid := pyStrip (pyUpper id_producto) with hnid
  cases hg : dictGet inv.productos nid with
  | none => exact ⟨nd1, nd2, hsync, hid, nd3, hbk, hix⟩
  | some p =>
    cases hv : validar_precio nuevo with
    | error e => exact ⟨nd1, nd2, hsync, hid, nd3, hbk, hix⟩
    | ok c =>
      have hpP : (nid, p) ∈ inv.productos := dictGet_mem hg
      have hpid : p.id_producto = nid := hid _ _ hpP
      have hkey : nid ∈ dictKeys inv.productos := mem_dictKeys_of_mem hpP
      refine ⟨nodup_dictKeys_dictSet nd1, nd2, ?_, ?_, nd3, ?_, ?_⟩
      · intro x
        rw [hsync, mem_dictKeys_dictSet]
        constructor
        · exact Or.inl
        · rintro (h1 | rfl)
          · exact h1
          · exact hkey
      · intro k q hkq
        rcases (mem_dictSet_iff nd1).mp hkq with ⟨rfl, rfl⟩ | ⟨holdq, -⟩
        · exact hpid
        · exact hid _ _ holdq
      · intro e he
        obtain ⟨h1, h2, h3⟩ := hbk e he
        exact ⟨h1, h2, fun i hi => mem_dictKeys_dictSet.mpr (Or.inl (h3 i hi))⟩
      · intro k q hkq
        rcases (mem_dictSet_iff nd1).mp hkq with ⟨rfl, rfl⟩ | ⟨holdq, -⟩
        · obtain ⟨hiffp, b, hbN, hpb⟩ := hix nid p hpP
          exact ⟨fun e he => hiffp e he, b, hbN, hpb⟩
        · exact hix _ _ holdq

theorem invariante_aplicar {inv : Inventario} (h : Invariante inv) (op : Op) :
    Invariante (aplicar inv op) := by
  cases op with
  | agregar p => exact invariante_agregar h p
  | eliminar i => exact invariante_eliminar h i
  | cantidad i c => exact invariante_actualizar_cantidad h i c
  | precio i pr => exact invariante_actualizar_precio h i pr

theorem invariante_foldl {inv : Inventario} (h : Invariante inv)
    (ops : List Op) : Invariante (ops.foldl aplicar inv) := by
  induction ops generalizing inv with
  | nil => exact h
  | cons op rest ih => exact ih (invariante_aplicar h op)

theorem invariante_ejecutar (ops : List Op) : Invariante (ejecutar ops) :=
  invariante_foldl invariante_vacio ops

/-! ### Well-formed stores: every stored product passed validation -/

/-- A store whose invariant holds and whose products all satisfy
`ProductoWF`; this is what running the program's operations (which only
ever insert constructor-validated products) produces. -/
def InventarioWF (inv : Inventario) : Prop :=
  Invariante inv ∧ ∀ k p, (k, p) ∈ inv.productos → ProductoWF p

theorem inventarioWF_vacio : InventarioWF inventario_vacio :=
  ⟨invariante_vacio, fun _ _ h => by cases h⟩

theorem inventarioWF_aplicar {inv : Inventario} (h : InventarioWF inv)
    {op : Op} (hop : OpWF op) : InventarioWF (aplicar inv op) := by
  obtain ⟨hinv, hwf⟩ := h
  have nd1 : (dictKeys inv.productos).Nodup := hinv.1
  refine ⟨invariante_aplicar hinv op, ?_⟩
  cases op with
  | agregar p =>
    simp only [aplicar, agregar_producto]
    by_cases hmem : p.id_producto ∈ inv.ids_productos
    · rw [if_pos hmem]; exact hwf
    · rw [if_neg hmem]
      intro k q hkq
      rcases (mem_dictSet_iff nd1).mp hkq with ⟨rfl, rfl⟩ | ⟨hold, -⟩
      · exact hop
      · exact hwf _ _ hold
  | eliminar i =>
    simp only [aplicar, eliminar_producto]
    by_cases hmem : pyStrip (pyUpper i) ∈ inv.ids_productos
    · rw [if_pos hmem]
      cases hg : dictGet inv.productos (pyStrip (pyUpper i)) with
      | none => exact hwf
      | some p =>
        intro k q hkq
        exact hwf _ _ ((mem_dictErase_iff nd1).mp hkq).1
    · rw [if_neg hmem]; exact hwf
  | cantidad i c =>
    simp only [aplicar, actualizar_cantidad]
    cases hg : dictGet inv.productos (pyStrip (pyUpper i)) with
    | none => exact hwf
    | some p =>
      cases hv : validar_cantidad c with
      | error e => exact hwf
      | ok c' =>
        intro k q hkq
        rcases (mem_dictSet_iff nd1).mp hkq with ⟨rfl, rfl⟩ | ⟨hold, -⟩
        · have hpwf := hwf _ _ (dictGet_mem hg)
          obtain ⟨w1, w2, w3, w4, w5⟩ := hpwf
          have hc' : validar_cantidad c' = .ok c' := by
            rw [validar_cantidad] at hv ⊢
            by_cases hneg : c < 0
            · rw [if_pos hneg] at hv; cases hv
            · rw [if_neg hneg] at hv
              cases hv
              rw [if_neg hneg]
          exact ⟨w1, w2, hc', w4, w5⟩
        · exact hwf _ _ hold
  | precio i pr =>
    simp only [aplicar, actualizar_precio]
    cases hg : dictGet inv.productos (pyStrip (pyUpper i)) with
    | none => exact hwf
    | some p =>
      cases hv : validar_precio pr with
      | error e => exact hwf
      | ok pr' =>
        intro k q hkq
        rcases (mem_dictSet_iff nd1).mp hkq with ⟨rfl, rfl⟩ | ⟨hold, -⟩
        · have hpwf := hwf _ _ (dictGet_mem hg)
          obtain ⟨w1, w2, w3, w4, w5⟩ := hpwf
          have hpr' : validar_precio pr' = .ok pr' := by
            rw [validar_precio] at hv ⊢
            by_cases hneg : pr < 0
            · rw [if_pos hneg] at hv; cases hv
            · rw [if_neg hneg] at hv
              cases hv
              rw [if_neg hneg]
          exact ⟨w1, w2, w3, hpr', w5⟩
        · exact hwf _ _ hold

theorem inventarioWF_ejecutar {ops : List Op} (hops : ∀ op ∈ ops, OpWF op) :
    InventarioWF (ejecutar ops) := by
  rw [ejecutar]
  have : ∀ (l : List Op) (inv : Inventario), InventarioWF inv →
      (∀ op ∈ l, OpWF op) → InventarioWF (l.foldl aplicar inv) := by
    intro l
    induction l with
    | nil => exact fun inv h _ => h
    | cons op rest ih =>
      intro inv h hl
      exact ih _ (inventarioWF_aplicar h (hl op (List.mem_cons_self _ _)))
        (fun o ho => hl o (List.mem_cons_of_mem _ ho))
  exact this ops inventario_vacio inventarioWF_vacio hops

/-- In a well-formed store, no name bucket is keyed by the empty string. -/
theorem claves_indice_no_vacias {inv : Inventario} (h : InventarioWF inv) :
    ∀ e ∈ inv.indice_nombres, ¬ e.1 = "" := by
  obtain ⟨⟨nd1, nd2, hsync, hid, nd3, hbk, hix⟩, hwf⟩ := h
  intro e he heq
  obtain ⟨bne, bnd, bsub⟩ := hbk e he
  obtain ⟨i, hi⟩ := List.exists_mem_of_ne_nil _ bne
  obtain ⟨p, hp⟩ := mem_dictKeys.mp (bsub i hi)
  obtain ⟨hiffp, -⟩ := hix i p hp
  have hkey : e.1 = normalizar_nombre p.nombre := (hiffp e he).mp hi
  have hwfp := hwf _ _ hp
  exact hwfp.2.2.2.2 (heq ▸ hkey.symm)

/-! ### Small supporting lemmas for the claims -/

theorem length_dictErase {α : Type} {d : List (String × α)} {k : String}
    (h : k ∈ dictKeys d) : (dictErase d k).length + 1 = d.length := by
  induction d with
  | nil => cases h
  | cons e t ih =>
    rw [dictErase]
    by_cases he : e.1 = k
    · rw [if_pos he]
      rfl
    · rw [if_neg he]
      have hkt : k ∈ dictKeys t := by
        rcases (by simpa [dictKeys] using h : k = e.1 ∨ k ∈ dictKeys t) with h1 | h1
        · exact absurd h1.symm he
        · exact h1
      simp only [List.length_cons]
      rw [← ih hkt]

theorem foldl_add_sum {M : Type} [AddCommMonoid M] (l : List M) (a : M) :
    l.foldl (· + ·) a = a + l.sum := by
  induction l generalizing a with
  | nil => simp
  | cons x t ih =>
    rw [List.foldl_cons, ih, List.sum_cons, add_assoc]

theorem filterMap_length_of_all_some {α β : Type} {f : α → Option β}
    {l : List α} (h : ∀ i ∈ l, ∃ p, f i = some p) :
    (l.filterMap f).length = l.length := by
  induction l with
  | nil => rfl
  | cons x t ih =>
    obtain ⟨p, hp⟩ := h x (List.mem_cons_self _ _)
    rw [List.filterMap_cons, hp, List.length_cons, List.length_cons,
      ih (fun i hi => h i (List.mem_cons_of_mem _ hi))]

/-- Reloading a serialized well-formed product reproduces it exactly,
including the creation timestamp. -/
theorem from_dict_to_dict {p : Producto} (h : ProductoWF p) (now : String) :
    Producto.from_dict (Producto.to_dict p) now = .ok p := by
  obtain ⟨h1, h2, h3, h4, h5⟩ := h
  rw [Producto.from_dict, Producto.to_dict, Producto.crear]
  simp only [h1, h2, h3, h4]
  rfl

/-! ### Concrete example data used by witnesses and counterexamples -/

/-- A validated laptop product (as `Producto("LAPTOP001", ...)` would build). -/
def prodLaptop : Producto :=
  ⟨"LAPTOP001", "Laptop Dell Xps 13", 10, 1300, "2024-01-01 10:00:00"⟩

/-- A validated mouse product. -/
def prodMouse : Producto :=
  ⟨"MOUSE001", "Mouse Logitech Mx Master 3", 25, 100, "2024-01-01 10:00:01"⟩

/-- A serialized record with id "A" and name "Foo". -/
def regFoo : ProductoDict := ⟨"A", "Foo", 1, 5, some "t1"⟩

/-- A serialized record with the same id "A" but name "Bar". -/
def regBar : ProductoDict := ⟨"A", "Bar", 2, 7, some "t2"⟩

/-! ### The claims -/

/-- C1: after any sequence of add, remove, updateQuantity and updatePrice
operations from the empty store, `ids` equals the key set of `products`;
every stored id lies in the bucket of its product's normalized
(lowercased-trimmed) name, in that bucket only (bucket keys are unique),
and no bucket is empty. -/
theorem claim_C1_invariante_estructural (ops : List Op) :
    (∀ x, x ∈ (ejecutar ops).ids_productos ↔
      x ∈ dictKeys (ejecutar ops).productos) ∧
    (dictKeys (ejecutar ops).indice_nombres).Nodup ∧
    (∀ k p, (k, p) ∈ (ejecutar ops).productos →
      (∃ b, (normalizar_nombre p.nombre, b) ∈ (ejecutar ops).indice_nombres ∧
        k ∈ b) ∧
      (∀ e ∈ (ejecutar ops).indice_nombres,
        k ∈ e.2 → e.1 = normalizar_nombre p.nombre)) ∧
    (∀ e ∈ (ejecutar ops).indice_nombres, e.2 ≠ []) := by
  obtain ⟨nd1, nd2, hsync, hid, nd3, hbk, hix⟩ := invariante_ejecutar ops
  refine ⟨hsync, nd3, ?_, fun e he => (hbk e he).1⟩
  intro k p hkp
  obtain ⟨hiffp, b, hbN, hkb⟩ := hix k p hkp
  exact ⟨⟨b, hbN, hkb⟩, fun e he hke => (hiffp e he).mp hke⟩

/-- C7 counterexample: on a non-empty store, `load()` of a missing file
returns success yet the store is NOT empty afterwards (the code returns
before clearing), refuting the claim for stores that are not already
empty. -/
theorem claim_C7_contraejemplo :
    (cargar_inventario (ejecutar [Op.agregar prodLaptop]) Archivo.ausente
      "2024-01-02 00:00:00").1 = true ∧
    (cargar_inventario (ejecutar [Op.agregar prodLaptop]) Archivo.ausente
      "2024-01-02 00:00:00").2.productos ≠ [] := by
  decide

/-- C7 (amended): `load()` of a nonexistent file returns success and leaves
the store exactly as it was; in particular a store that was empty (such as
a fresh one) is still empty afterwards. -/
theorem claim_C7_cargar_ausente (inv : Inventario) (now : String) :
    cargar_inventario inv Archivo.ausente now = (true, inv) := rfl

/-- C8: `load()` of an existing but unparseable file returns failure and
leaves the whole store (products, ids, name index) untouched, because the
structures are cleared only after a successful parse. -/
theorem claim_C8_cargar_malformado (inv : Inventario) (now : String) :
    cargar_inventario inv Archivo.malformado now = (false, inv) := rfl

/-- C10: loading a parsed file always reports success, even when two
records share an id: demonstrated concretely, the later record ("Bar")
replaces the earlier one ("Foo") under their common id "A", while the
id remains in the stale bucket of the earlier record's normalized name
("foo") as well as in the new one ("bar"). -/
theorem claim_C10_carga_duplicados :
    (∀ (d : DatosGuardados) (inv : Inventario) (now : String),
      (cargar_inventario inv (Archivo.datos d) now).1 = true) ∧
    (cargar_inventario inventario_vacio
        (Archivo.datos ⟨[regFoo, regBar], "s", "1.0"⟩) "now").2.productos =
      [("A", ⟨"A", "Bar", 2, 7, "t2"⟩)] ∧
    (cargar_inventario inventario_vacio
        (Archivo.datos ⟨[regFoo, regBar], "s", "1.0"⟩) "now").2.indice_nombres =
      [("foo", ["A"]), ("bar", ["A"])] := by
  refine ⟨fun d inv now => rfl, ?_, ?_⟩ <;> decide

/-- C3: adding a product whose id is already present returns `false` and
leaves the store exactly unchanged; adding a fresh id returns `true` and
inserts the product into the dict, the id set and its name bucket. -/
theorem claim_C3_agregar (ops : List Op) (p : Producto) :
    (p.id_producto ∈ (ejecutar ops).ids_productos →
      agregar_producto (ejecutar ops) p = (false, ejecutar ops)) ∧
    (p.id_producto ∉ (ejecutar ops).ids_productos →
      (agregar_producto (ejecutar ops) p).1 = true ∧
      dictGet (agregar_producto (ejecutar ops) p).2.productos p.id_producto =
        some p ∧
      p.id_producto ∈ (agregar_producto (ejecutar ops) p).2.ids_productos ∧
      ∃ b, dictGet (agregar_producto (ejecutar ops) p).2.indice_nombres
          (normalizar_nombre p.nombre) = some b ∧ p.id_producto ∈ b) := by
  obtain ⟨nd1, nd2, hsync, hid, nd3, hbk, hix⟩ := invariante_ejecutar ops
  constructor
  · intro hmem
    rw [agregar_producto, if_pos hmem]
  · intro hmem
    have hknot : p.id_producto ∉ dictKeys (ejecutar ops).productos :=
      fun hk => hmem ((hsync _).mpr hk)
    have hnotin : p.id_producto ∉
        (dictGet (ejecutar ops).indice_nombres
          (normalizar_nombre p.nombre)).getD [] := by
      cases hg : dictGet (ejecutar ops).indice_nombres
          (normalizar_nombre p.nombre) with
      | none => simp
      | some b =>
        intro hin
        exact hknot ((hbk _ (dictGet_mem hg)).2.2 _ (by simpa using hin))
    obtain ⟨ndN, hgself, hgne, hmemN⟩ := actualizar_spec (p := p) nd3 hnotin
    rw [agregar_producto, if_neg hmem]
    refine ⟨rfl, dictGet_dictSet_self, mem_setAdd_iff.mpr (Or.inr rfl), ?_⟩
    exact ⟨_, hgself, by simp⟩

/-- C4: removing a present id (after uppercase-trim normalization) returns
`true`, decrements the count by exactly one, and afterwards `contains` is
false, `findById` reports not-found, and the id is gone from the bucket of
its product's normalized name, that bucket surviving only non-empty;
removing an absent id returns `false` with the store unchanged. -/
theorem claim_C4_eliminar (ops : List Op) (id_producto : String) :
    (pyStrip (pyUpper id_producto) ∈ (ejecutar ops).ids_productos →
      (eliminar_producto (ejecutar ops) id_producto).1 = true ∧
      longitud (eliminar_producto (ejecutar ops) id_producto).2 + 1 =
        longitud (ejecutar ops) ∧
      contiene (eliminar_producto (ejecutar ops) id_producto).2 id_producto =
        false ∧
      obtener_producto_por_id (eliminar_producto (ejecutar ops) id_producto).2
        id_producto = none ∧
      (∀ p, dictGet (ejecutar ops).productos (pyStrip (pyUpper id_producto)) =
          some p →
        ∀ b', dictGet (eliminar_producto (ejecutar ops) id_producto).2.indice_nombres
            (normalizar_nombre p.nombre) = some b' →
          pyStrip (pyUpper id_producto) ∉ b' ∧ b' ≠ [])) ∧
    (pyStrip (pyUpper id_producto) ∉ (ejecutar ops).ids_productos →
      eliminar_producto (ejecutar ops) id_producto = (false, ejecutar ops)) := by
  obtain ⟨nd1, nd2, hsync, hid, nd3, hbk, hix⟩ := invariante_ejecutar ops
  constructor
  · intro hmem
    have hkey : pyStrip (pyUpper id_producto) ∈ dictKeys (ejecutar ops).productos :=
      (hsync _).mp hmem
    obtain ⟨p, hp⟩ := dictGet_isSome hkey
    have hpP : (pyStrip (pyUpper id_producto), p) ∈ (ejecutar ops).productos :=
      dictGet_mem hp
    obtain ⟨hiffp, b, hbN, hpb⟩ := hix _ p hpP
    have hpid : p.id_producto = pyStrip (pyUpper id_producto) := hid _ _ hpP
    have hgetb : dictGet (ejecutar ops).indice_nombres
        (normalizar_nombre p.nombre) = some b :=
      (dictGet_eq_some_iff nd3).mpr hbN
    obtain ⟨bne, bnd, bsub⟩ := hbk _ hbN
    obtain ⟨ndN, hgself, hgne, hmemN⟩ := remover_spec (p := p) nd3 hgetb
    rw [eliminar_producto, if_pos hmem, hp]
    refine ⟨rfl, ?_, ?_, ?_, ?_⟩
    · exact length_dictErase hkey
    · simp only [contiene, decide_eq_false_iff_not, mem_setQuitar_iff]
      simp
    · exact dictGet_dictErase_self nd1
    · intro q hq b' hb'
      obtain rfl : p = q := Option.some.inj hq
      have hb2 : dictGet (remover_de_indice_nombres
          (ejecutar ops).indice_nombres p) (normalizar_nombre p.nombre) =
          some b' := hb'
      rw [hgself] at hb2
      by_cases hvacia : b.erase p.id_producto = []
      · rw [if_pos hvacia] at hb2
        cases hb2
      · rw [if_neg hvacia] at hb2
        cases hb2
        constructor
        · intro hin
          exact ((List.Nodup.mem_erase_iff bnd).mp hin).1 hpid.symm
        · exact hvacia
  · intro hmem
    rw [eliminar_producto, if_neg hmem]

/-- Python `max(..., key=lambda p: p.precio)`: the fold keeps the first
product of maximal price; its result is in the list and dominates it. -/
theorem maxPorPrecio_spec (p : Producto) (ps : List Producto) :
    maxPorPrecio p ps ∈ p :: ps ∧
    ∀ q ∈ p :: ps, q.precio ≤ (maxPorPrecio p ps).precio := by
  induction ps generalizing p with
  | nil =>
    refine ⟨List.mem_cons_self _ _, ?_⟩
    intro q hq
    rcases List.mem_cons.mp hq with rfl | h
    · exact le_refl _
    · cases h
  | cons r t ih =>
    have hstep : maxPorPrecio p (r :: t) =
        maxPorPrecio (if p.precio < r.precio then r else p) t := rfl
    obtain ⟨ihmem, ihle⟩ := ih (if p.precio < r.precio then r else p)
    rw [hstep]
    constructor
    · rcases List.mem_cons.mp ihmem with hh | hh
      · rw [hh]
        by_cases hpr : p.precio < r.precio
        · rw [if_pos hpr]
          exact List.mem_cons_of_mem _ (List.mem_cons_self _ _)
        · rw [if_neg hpr]
          exact List.mem_cons_self _ _
      · exact List.mem_cons_of_mem _ (List.mem_cons_of_mem _ hh)
    · have hhead : (if p.precio < r.precio then r else p).precio ≤
          (maxPorPrecio (if p.precio < r.precio then r else p) t).precio :=
        ihle _ (List.mem_cons_self _ _)
      intro q hq
      rcases List.mem_cons.mp hq with rfl | hq1
      · refine le_trans ?_ hhead
        by_cases hpr : q.precio < r.precio
        · rw [if_pos hpr]
          exact le_of_lt hpr
        · rw [if_neg hpr]
      · rcases List.mem_cons.mp hq1 with rfl | hq2
        · refine le_trans ?_ hhead
          by_cases hpr : p.precio < q.precio
          · rw [if_pos hpr]
          · rw [if_neg hpr]
            exact le_of_not_lt hpr
        · exact ihle _ (List.mem_cons_of_mem _ hq2)

/-- Python `min(..., key=lambda p: p.precio)`: dual of `maxPorPrecio_spec`. -/
theorem minPorPrecio_spec (p : Producto) (ps : List Producto) :
    minPorPrecio p ps ∈ p :: ps ∧
    ∀ q ∈ p :: ps, (minPorPrecio p ps).precio ≤ q.precio := by
  induction ps generalizing p with
  | nil =>
    refine ⟨List.mem_cons_self _ _, ?_⟩
    intro q hq
    rcases List.mem_cons.mp hq with rfl | h
    · exact le_refl _
    · cases h
  | cons r t ih =>
    have hstep : minPorPrecio p (r :: t) =
        minPorPrecio (if r.precio < p.precio then r else p) t := rfl
    obtain ⟨ihmem, ihle⟩ := ih (if r.precio < p.precio then r else p)
    rw [hstep]
    constructor
    · rcases List.mem_cons.mp ihmem with hh | hh
      · rw [hh]
        by_cases hpr : r.precio < p.precio
        · rw [if_pos hpr]
          exact List.mem_cons_of_mem _ (List.mem_cons_self _ _)
        · rw [if_neg hpr]
          exact List.mem_cons_self _ _
      · exact List.mem_cons_of_mem _ (List.mem_cons_of_mem _ hh)
    · have hhead : (minPorPrecio (if r.precio < p.precio then r else p) t).precio ≤
          (if r.precio < p.precio then r else p).precio :=
        ihle _ (List.mem_cons_self _ _)
      intro q hq
      rcases List.mem_cons.mp hq with rfl | hq1
      · refine le_trans hhead ?_
        by_cases hpr : r.precio < q.precio
        · rw [if_pos hpr]
          exact le_of_lt hpr
        · rw [if_neg hpr]
      · rcases List.mem_cons.mp hq1 with rfl | hq2
        · refine le_trans hhead ?_
          by_cases hpr : q.precio < p.precio
          · rw [if_pos hpr]
          · rw [if_neg hpr]
            exact le_of_not_lt hpr
        · exact ihle _ (List.mem_cons_of_mem _ hq2)

/-- C6: statistics on the empty store are all zero with no extremal
products; on a non-empty store they are the product count, the summed
quantity-times-price values, a product of maximal price, a product of
minimal price, and the summed quantities. -/
theorem claim_C6_estadisticas (inv : Inventario) :
    (inv.productos = [] →
      obtener_estadisticas inv = ⟨0, 0, none, none, 0⟩) ∧
    (inv.productos ≠ [] →
      (obtener_estadisticas inv).total_productos = inv.productos.length ∧
      (obtener_estadisticas inv).valor_total_inventario =
        ((dictValues inv.productos).map
          (fun p => p.calcular_valor_total)).sum ∧
      (obtener_estadisticas inv).stock_total =
        ((dictValues inv.productos).map (fun p => p.cantidad)).sum ∧
      (∃ p, (obtener_estadisticas inv).producto_mas_caro = some p ∧
        p ∈ dictValues inv.productos ∧
        ∀ q ∈ dictValues inv.productos, q.precio ≤ p.precio) ∧
      (∃ p, (obtener_estadisticas inv).producto_mas_barato = some p ∧
        p ∈ dictValues inv.productos ∧
        ∀ q ∈ dictValues inv.productos, p.precio ≤ q.precio)) := by
  constructor
  · intro h
    have hv : dictValues inv.productos = [] := by rw [dictValues, h]; rfl
    rw [obtener_estadisticas, hv]
  · intro hne
    cases hv : dictValues inv.productos with
    | nil =>
      exact absurd (by simpa [dictValues] using hv) hne
    | cons p ps =>
      have hlen : inv.productos.length = (p :: ps).length := by
        rw [← hv, dictValues, List.length_map]
      refine ⟨?_, ?_, ?_, ?_, ?_⟩
      · simp only [obtener_estadisticas, hv]
        exact hlen.symm
      · simp only [obtener_estadisticas, hv]
        rw [foldl_add_sum, zero_add]
      · simp only [obtener_estadisticas, hv]
        rw [foldl_add_sum, zero_add]
      · obtain ⟨hmem, hle⟩ := maxPorPrecio_spec p ps
        refine ⟨maxPorPrecio p ps, ?_, ?_, ?_⟩
        · simp only [obtener_estadisticas, hv]
        · exact hmem
        · intro q hq
          exact hle q hq
      · obtain ⟨hmem, hle⟩ := minPorPrecio_spec p ps
        refine ⟨minPorPrecio p ps, ?_, ?_, ?_⟩
        · simp only [obtener_estadisticas, hv]
        · exact hmem
        · intro q hq
          exact hle q hq

/-- Witness for C3: in a store holding LAPTOP001, adding LAPTOP001 again
fails and leaves the store intact, while adding MOUSE001 succeeds. -/
theorem claim_C3_testigo :
    (prodLaptop.id_producto ∈ (ejecutar [Op.agregar prodLaptop]).ids_productos ∧
      agregar_producto (ejecutar [Op.agregar prodLaptop]) prodLaptop =
        (false, ejecutar [Op.agregar prodLaptop])) ∧
    (prodMouse.id_producto ∉ (ejecutar [Op.agregar prodLaptop]).ids_productos ∧
      (agregar_producto (ejecutar [Op.agregar prodLaptop]) prodMouse).1 = true) :=
  ⟨⟨by decide,
    (claim_C3_agregar [Op.agregar prodLaptop] prodLaptop).1 (by decide)⟩,
   ⟨by decide,
    ((claim_C3_agregar [Op.agregar prodLaptop] prodMouse).2 (by decide)).1⟩⟩

/-- Witness for C4: removing " laptop001 " (normalized to LAPTOP001)
succeeds, removing an unknown id fails leaving the store unchanged. -/
theorem claim_C4_testigo :
    (pyStrip (pyUpper " laptop001 ") ∈
        (ejecutar [Op.agregar prodLaptop]).ids_productos ∧
      (eliminar_producto (ejecutar [Op.agregar prodLaptop]) " laptop001 ").1 =
        true) ∧
    (pyStrip (pyUpper "GHOST") ∉
        (ejecutar [Op.agregar prodLaptop]).ids_productos ∧
      eliminar_producto (ejecutar [Op.agregar prodLaptop]) "GHOST" =
        (false, ejecutar [Op.agregar prodLaptop])) :=
  ⟨⟨by decide,
    ((claim_C4_eliminar [Op.agregar prodLaptop] " laptop001 ").1 (by decide)).1⟩,
   ⟨by decide,
    (claim_C4_eliminar [Op.agregar prodLaptop] "GHOST").2 (by decide)⟩⟩

/-- Witness for C6: the empty store yields the zero record; a two-product
store yields its product count. -/
theorem claim_C6_testigo :
    obtener_estadisticas inventario_vacio = ⟨0, 0, none, none, 0⟩ ∧
    (ejecutar [Op.agregar prodLaptop, Op.agregar prodMouse]).productos ≠ [] ∧
    (obtener_estadisticas
        (ejecutar [Op.agregar prodLaptop, Op.agregar prodMouse])).total_productos =
      (ejecutar [Op.agregar prodLaptop, Op.agregar prodMouse]).productos.length :=
  ⟨(claim_C6_estadisticas inventario_vacio).1 rfl,
   by decide,
   ((claim_C6_estadisticas
      (ejecutar [Op.agregar prodLaptop, Op.agregar prodMouse])).2 (by decide)).1⟩

/-- The empty string is a substring of every string (Python `"" in s`). -/
theorem pyContiene_vacio (s : String) : pyContiene s "" = true := by
  obtain ⟨l⟩ := s
  cases l <;> rfl

/-- C5: search first normalizes the query; when a bucket with exactly that
key exists the result is precisely that bucket's products in bucket order
(one product per id, hence the same length) and the substring fallback is
not consulted; only when there is no exact bucket does the search return
the products of every bucket whose key contains the query; and when
nothing matches at all the result is the empty list. -/
theorem claim_C5_buscar (ops : List Op) (hops : ∀ op ∈ ops, OpWF op)
    (nombre : String) :
    (∀ b, dictGet (ejecutar ops).indice_nombres (normalizar_nombre nombre) =
        some b →
      buscar_por_nombre (ejecutar ops) nombre =
        b.filterMap (fun i => dictGet (ejecutar ops).productos i) ∧
      (b.filterMap (fun i => dictGet (ejecutar ops).productos i)).length =
        b.length ∧
      b ≠ []) ∧
    (dictGet (ejecutar ops).indice_nombres (normalizar_nombre nombre) = none →
      buscar_por_nombre (ejecutar ops) nombre =
        ((ejecutar ops).indice_nombres.filter
          (fun e => pyContiene e.1 (normalizar_nombre nombre))).flatMap
          (fun e => e.2.filterMap (fun i => dictGet (ejecutar ops).productos i))) ∧
    (dictGet (ejecutar ops).indice_nombres (normalizar_nombre nombre) = none →
      (ejecutar ops).indice_nombres.filter
        (fun e => pyContiene e.1 (normalizar_nombre nombre)) = [] →
      buscar_por_nombre (ejecutar ops) nombre = []) := by
  obtain ⟨⟨nd1, nd2, hsync, hid, nd3, hbk, hix⟩, hwf⟩ := inventarioWF_ejecutar hops
  have hfall : dictGet (ejecutar ops).indice_nombres
      (normalizar_nombre nombre) = none →
      buscar_por_nombre (ejecutar ops) nombre =
        ((ejecutar ops).indice_nombres.filter
          (fun e => pyContiene e.1 (normalizar_nombre nombre))).flatMap
          (fun e => e.2.filterMap (fun i => dictGet (ejecutar ops).productos i)) := by
    intro hnone
    simp only [buscar_por_nombre, hnone, if_true]
  refine ⟨?_, hfall, ?_⟩
  · intro b hb
    have hbN : (normalizar_nombre nombre, b) ∈ (ejecutar ops).indice_nombres :=
      dictGet_mem hb
    obtain ⟨bne, bnd, bsub⟩ := hbk _ hbN
    have hlive : ∀ i ∈ b, ∃ p, dictGet (ejecutar ops).productos i = some p :=
      fun i hi => dictGet_isSome (bsub i hi)
    have hlen : (b.filterMap (fun i => dictGet (ejecutar ops).productos i)).length =
        b.length := filterMap_length_of_all_some hlive
    have hne2 : ¬ b.filterMap (fun i => dictGet (ejecutar ops).productos i) = [] := by
      intro h0
      rw [h0] at hlen
      have hb0 : b = [] := List.length_eq_zero.mp hlen.symm
      exact bne hb0
    constructor
    · simp only [buscar_por_nombre, hb]
      rw [if_neg hne2]
    · exact ⟨hlen, by simpa using bne⟩
  · intro hnone hfil
    rw [hfall hnone, hfil]
    rfl

/-- C9: on a non-empty well-formed store, a query that normalizes to the
empty string matches no bucket exactly (bucket keys are non-blank) but is
a substring of every bucket key, so the fallback returns exactly the
products of the store: every stored product is in the result, and
everything in the result is a stored product. -/
theorem claim_C9_buscar_query_en_blanco (ops : List Op)
    (hops : ∀ op ∈ ops, OpWF op) (q : String)
    (hne : (ejecutar ops).productos ≠ [])
    (hblank : normalizar_nombre q = "") :
    (∀ k p, (k, p) ∈ (ejecutar ops).productos →
      p ∈ buscar_por_nombre (ejecutar ops) q) ∧
    (∀ p, p ∈ buscar_por_nombre (ejecutar ops) q →
      ∃ k, (k, p) ∈ (ejecutar ops).productos) := by
  have hkeys := claves_indice_no_vacias (inventarioWF_ejecutar hops)
  obtain ⟨⟨nd1, nd2, hsync, hid, nd3, hbk, hix⟩, hwf⟩ := inventarioWF_ejecutar hops
  have hnone : dictGet (ejecutar ops).indice_nombres (normalizar_nombre q) =
      none := by
    rw [hblank, dictGet_eq_none]
    intro hmem
    obtain ⟨b, hb⟩ := mem_dictKeys.mp hmem
    exact hkeys _ hb rfl
  have hfilter : (ejecutar ops).indice_nombres.filter
      (fun e => pyContiene e.1 (normalizar_nombre q)) =
      (ejecutar ops).indice_nombres := by
    rw [hblank]
    apply List.filter_eq_self.mpr
    intro e he
    exact pyContiene_vacio e.1
  have hbuscar : buscar_por_nombre (ejecutar ops) q =
      (ejecutar ops).indice_nombres.flatMap
        (fun e => e.2.filterMap (fun i => dictGet (ejecutar ops).productos i)) := by
    simp only [buscar_por_nombre, hnone, hfilter, if_true]
  constructor
  · intro k p hkp
    obtain ⟨hiffp, b, hbN, hkb⟩ := hix k p hkp
    have hget : dictGet (ejecutar ops).productos k = some p :=
      (dictGet_eq_some_iff nd1).mpr hkp
    rw [hbuscar]
    exact List.mem_flatMap.mpr
      ⟨(normalizar_nombre p.nombre, b), hbN,
        List.mem_filterMap.mpr ⟨k, by simpa using hkb, hget⟩⟩
  · intro p hp
    rw [hbuscar] at hp
    obtain ⟨e, heN, hpe⟩ := List.mem_flatMap.mp hp
    obtain ⟨i, hie, hget⟩ := List.mem_filterMap.mp hpe
    exact ⟨i, dictGet_mem hget⟩

/-- Witness for C5: with LAPTOP001 and MOUSE001 stored, an exact-name
query (any casing, trailing blanks) returns exactly the mouse bucket's
products. -/
theorem claim_C5_testigo :
    (∀ op ∈ [Op.agregar prodLaptop, Op.agregar prodMouse], OpWF op) ∧
    dictGet (ejecutar [Op.agregar prodLaptop, Op.agregar prodMouse]).indice_nombres
      (normalizar_nombre "MOUSE Logitech mx master 3  ") = some ["MOUSE001"] ∧
    buscar_por_nombre (ejecutar [Op.agregar prodLaptop, Op.agregar prodMouse])
      "MOUSE Logitech mx master 3  " =
      ["MOUSE001"].filterMap
        (fun i => dictGet
          (ejecutar [Op.agregar prodLaptop, Op.agregar prodMouse]).productos i) :=
  ⟨by decide, by decide,
   ((claim_C5_buscar [Op.agregar prodLaptop, Op.agregar prodMouse] (by decide)
      "MOUSE Logitech mx master 3  ").1 ["MOUSE001"] (by decide)).1⟩

/-- Witness for C9: a whitespace-only query on the two-product store
returns (among others) the mouse product. -/
theorem claim_C9_testigo :
    (∀ op ∈ [Op.agregar prodLaptop, Op.agregar prodMouse], OpWF op) ∧
    (ejecutar [Op.agregar prodLaptop, Op.agregar prodMouse]).productos ≠ [] ∧
    normalizar_nombre "   " = "" ∧
    prodMouse ∈ buscar_por_nombre
      (ejecutar [Op.agregar prodLaptop, Op.agregar prodMouse]) "   " :=
  ⟨by decide, by decide, by decide,
   (claim_C9_buscar_query_en_blanco [Op.agregar prodLaptop, Op.agregar prodMouse]
      (by decide) "   " (by decide) (by decide)).1 "MOUSE001" prodMouse (by decide)⟩

theorem mem_dictSet_self {α : Type} {d : List (String × α)} {k : String}
    {v : α} : (k, v) ∈ dictSet d k v := by
  induction d with
  | nil => simp [dictSet]
  | cons e t ih =>
    rw [dictSet]
    by_cases he : e.1 = k
    · rw [if_pos he]
      exact List.mem_cons_self _ _
    · rw [if_neg he]
      exact List.mem_cons_of_mem _ ih

theorem mem_dictSet_of_mem_of_ne {α : Type} {d : List (String × α)}
    {k k' : String} {v v' : α} (hm : (k', v') ∈ d) (hne : ¬ k' = k) :
    (k', v') ∈ dictSet d k v := by
  induction d with
  | nil => cases hm
  | cons e t ih =>
    rw [dictSet]
    by_cases he : e.1 = k
    · rw [if_pos he]
      rcases List.mem_cons.mp hm with h1 | h1
      · exact absurd ((congrArg Prod.fst h1).trans he) hne
      · exact List.mem_cons_of_mem _ h1
    · rw [if_neg he]
      rcases List.mem_cons.mp hm with h1 | h1
      · exact h1 ▸ List.mem_cons_self _ _
      · exact List.mem_cons_of_mem _ (ih h1)

/-- Serialization determines the product: `to_dict` is injective. -/
theorem to_dict_inj {p q : Producto}
    (h : Producto.to_dict p = Producto.to_dict q) : p = q := by
  cases p
  cases q
  simp only [Producto.to_dict, ProductoDict.mk.injEq, Option.some.injEq] at h
  simp only [Producto.mk.injEq]
  exact h

/-- The load loop over records that all deserialize to products of `invP`
(with matching keys) keeps the accumulated dict inside `invP`, keeps its
keys duplicate-free, and ends up containing every entry of `invP` whose
serialized form occurs among the records. -/
theorem cargar_lista {invP : List (String × Producto)}
    (hnd : (dictKeys invP).Nodup)
    (hids : ∀ e ∈ invP, e.2.id_producto = e.1) (now : String) :
    ∀ (rs : List ProductoDict) (acc : Inventario),
    (∀ e ∈ acc.productos, e ∈ invP) →
    (dictKeys acc.productos).Nodup →
    (∀ r ∈ rs, ∃ k₀ p₀, (k₀, p₀) ∈ invP ∧ r = Producto.to_dict p₀ ∧
      Producto.from_dict r now = .ok p₀) →
    (∀ e ∈ (rs.foldl (fun a r => cargar_registro a r now) acc).productos,
      e ∈ invP) ∧
    (dictKeys (rs.foldl (fun a r => cargar_registro a r now) acc).productos).Nodup ∧
    (∀ k₀ p₀, (k₀, p₀) ∈ invP →
      ((k₀, p₀) ∈ acc.productos ∨ Producto.to_dict p₀ ∈ rs) →
      (k₀, p₀) ∈ (rs.foldl (fun a r => cargar_registro a r now) acc).productos) := by
  intro rs
  induction rs with
  | nil =>
    intro acc hsub hndacc _
    refine ⟨hsub, hndacc, ?_⟩
    rintro k₀ p₀ hin (h | h)
    · exact h
    · cases h
  | cons r rest ih =>
    intro acc hsub hndacc hrs
    obtain ⟨k₁, p₁, hmem₁, hr₁, hok₁⟩ := hrs r (List.mem_cons_self _ _)
    have hid₁ : p₁.id_producto = k₁ := hids _ hmem₁
    have hacc' : (cargar_registro acc r now).productos =
        dictSet acc.productos p₁.id_producto p₁ := by
      rw [cargar_registro, hok₁]
    have hsub' : ∀ e ∈ (cargar_registro acc r now).productos, e ∈ invP := by
      intro e he
      rw [hacc'] at he
      obtain ⟨e1, e2⟩ := e
      rcases (mem_dictSet_iff hndacc).mp he with ⟨rfl, rfl⟩ | ⟨hold, -⟩
      · rw [hid₁]
        exact hmem₁
      · exact hsub _ hold
    have hnd' : (dictKeys (cargar_registro acc r now).productos).Nodup := by
      rw [hacc']
      exact nodup_dictKeys_dictSet hndacc
    have hpersist : ∀ k₀ p₀, (k₀, p₀) ∈ acc.productos →
        (k₀, p₀) ∈ (cargar_registro acc r now).productos := by
      intro k₀ p₀ hin
      rw [hacc']
      by_cases hk : k₀ = p₁.id_producto
      · have hinv₀ : (k₀, p₀) ∈ invP := hsub _ hin
        have hp01 : p₀ = p₁ := by
          apply nodup_key_eq hnd hinv₀
          rw [hk, hid₁]
          exact hmem₁
        rw [hk, hp01]
        exact mem_dictSet_self
      · exact mem_dictSet_of_mem_of_ne hin hk
    have hstep := ih (cargar_registro acc r now) hsub' hnd'
      (fun r' hr' => hrs r' (List.mem_cons_of_mem _ hr'))
    refine ⟨hstep.1, hstep.2.1, ?_⟩
    rintro k₀ p₀ hin (h | h)
    · exact hstep.2.2 k₀ p₀ hin (Or.inl (hpersist _ _ h))
    · rcases List.mem_cons.mp h with h1 | h1
      · have hp01 : p₀ = p₁ := to_dict_inj (h1.trans hr₁)
        have hidk₀ : p₀.id_producto = k₀ := hids _ hin
        have hk01 : k₀ = k₁ := by
          rw [← hidk₀, hp01, hid₁]
        refine hstep.2.2 k₀ p₀ hin (Or.inl ?_)
        rw [hacc']
        have : (k₀, p₀) = (p₁.id_producto, p₁) := by
          rw [hp01, hk01, hid₁]
        rw [this]
        exact mem_dictSet_self
      · exact hstep.2.2 k₀ p₀ hin (Or.inr h1)

/-- C2: saving a well-formed store and loading any permutation of the
written records into a fresh store reproduces exactly the same
id-to-product mapping (names, quantities, prices and creation timestamps
included), independent of record order; both operations report success. -/
theorem claim_C2_guardar_cargar (inv : Inventario) (d : DatosGuardados)
    (fg now : String)
    (hwf : ∀ e ∈ inv.productos, e.2.id_producto = e.1 ∧ ProductoWF e.2)
    (hnd : (dictKeys inv.productos).Nodup)
    (hperm : d.productos.Perm (guardar_inventario inv fg).2.productos) :
    (guardar_inventario inv fg).1 = true ∧
    (cargar_inventario inventario_vacio (Archivo.datos d) now).1 = true ∧
    ∀ k, dictGet (cargar_inventario inventario_vacio
        (Archivo.datos d) now).2.productos k = dictGet inv.productos k := by
  have hsaved : (guardar_inventario inv fg).2.productos =
      inv.productos.map (fun e => Producto.to_dict e.2) := by
    rw [guardar_inventario, dictValues, List.map_map]
    rfl
  have hrs : ∀ r ∈ d.productos, ∃ k₀ p₀, (k₀, p₀) ∈ inv.productos ∧
      r = Producto.to_dict p₀ ∧ Producto.from_dict r now = .ok p₀ := by
    intro r hr
    have hr2 : r ∈ inv.productos.map (fun e => Producto.to_dict e.2) := by
      rw [← hsaved]
      exact hperm.mem_iff.mp hr
    obtain ⟨⟨k₀, p₀⟩, hmem, hform⟩ := List.mem_map.mp hr2
    refine ⟨k₀, p₀, hmem, hform.symm, ?_⟩
    rw [← hform]
    exact from_dict_to_dict (hwf _ hmem).2 now
  obtain ⟨hsub, hndres, hall⟩ :=
    cargar_lista hnd (fun e he => (hwf e he).1) now d.productos inventario_vacio
      (fun e he => absurd he (List.not_mem_nil e)) List.nodup_nil hrs
  refine ⟨rfl, rfl, ?_⟩
  intro k
  cases hg : dictGet inv.productos k with
  | some p =>
    have hinv : (k, p) ∈ inv.productos := dictGet_mem hg
    have hto : Producto.to_dict p ∈ d.productos := by
      rw [hperm.mem_iff, hsaved]
      exact List.mem_map.mpr ⟨(k, p), hinv, rfl⟩
    exact (dictGet_eq_some_iff hndres).mpr (hall k p hinv (Or.inr hto))
  | none =>
    cases hr : dictGet (cargar_inventario inventario_vacio
        (Archivo.datos d) now).2.productos k with
    | none => rfl
    | some p =>
      have hinv : (k, p) ∈ inv.productos := hsub _ (dictGet_mem hr)
      exact absurd (mem_dictKeys_of_mem hinv) (dictGet_eq_none.mp hg)

/-- Witness for C2: the two-product store saved and reloaded from the
records in reversed order reproduces the MOUSE001 entry exactly. -/
theorem claim_C2_testigo :
    (∀ e ∈ (ejecutar [Op.agregar prodLaptop, Op.agregar prodMouse]).productos,
      e.2.id_producto = e.1 ∧ ProductoWF e.2) ∧
    (dictKeys (ejecutar [Op.agregar prodLaptop,
      Op.agregar prodMouse]).productos).Nodup ∧
    List.Perm [Producto.to_dict prodMouse, Producto.to_dict prodLaptop]
      (guardar_inventario (ejecutar [Op.agregar prodLaptop, Op.agregar prodMouse])
        "2024-01-03 09:00:00").2.productos ∧
    dictGet (cargar_inventario inventario_vacio
        (Archivo.datos ⟨[Producto.to_dict prodMouse, Producto.to_dict prodLaptop],
          "2024-01-03 09:00:00", "1.0"⟩) "2024-01-04 09:00:00").2.productos
      "MOUSE001" =
    dictGet (ejecutar [Op.agregar prodLaptop, Op.agregar prodMouse]).productos
      "MOUSE001" :=
  ⟨by decide, by decide, by decide,
   (claim_C2_guardar_cargar
      (ejecutar [Op.agregar prodLaptop, Op.agregar prodMouse])
      ⟨[Producto.to_dict prodMouse, Producto.to_dict prodLaptop],
        "2024-01-03 09:00:00", "1.0"⟩
      "2024-01-03 09:00:00" "2024-01-04 09:00:00"
      (by decide) (by decide) (by decide)).2.2 "MOUSE001"⟩

/-! ### The validating constructor produces well-formed products -/

theorem esEspacio_minusChar (c : Char) : esEspacio (minusChar c) = esEspacio c := by
  rw [minusChar]
  cases hf : paresMayusMinus.find? (fun e => e.1 = c) with
  | none => rfl
  | some e =>
    have he1 : e.1 = c := by simpa using List.find?_some hf
    have he2 : e ∈ paresMayusMinus := List.mem_of_find?_eq_some hf
    have hx : ∀ x ∈ paresMayusMinus,
        esEspacio x.1 = false ∧ esEspacio x.2 = false := by decide
    simp only [Option.map_some', Option.getD_some]
    rw [(hx e he2).2, ← he1, (hx e he2).1]

theorem esEspacio_mayusChar (c : Char) : esEspacio (mayusChar c) = esEspacio c := by
  rw [mayusChar]
  cases hf : paresMayusMinus.find? (fun e => e.2 = c) with
  | none => rfl
  | some e =>
    have he1 : e.2 = c := by simpa using List.find?_some hf
    have he2 : e ∈ paresMayusMinus := List.mem_of_find?_eq_some hf
    have hx : ∀ x ∈ paresMayusMinus,
        esEspacio x.1 = false ∧ esEspacio x.2 = false := by decide
    simp only [Option.map_some', Option.getD_some]
    rw [(hx e he2).1, ← he1, (hx e he2).2]

theorem mayusChar_idem (c : Char) : mayusChar (mayusChar c) = mayusChar c := by
  cases hf : paresMayusMinus.find? (fun e => e.2 = c) with
  | none =>
    have h0 : mayusChar c = c := by rw [mayusChar, hf]; rfl
    rw [h0]
    exact h0
  | some e =>
    have he2 : e ∈ paresMayusMinus := List.mem_of_find?_eq_some hf
    have h1 : mayusChar c = e.1 := by rw [mayusChar, hf]; rfl
    have hx : ∀ x ∈ paresMayusMinus,
        paresMayusMinus.find? (fun e => e.2 = x.1) = none := by decide
    rw [h1, mayusChar, hx e he2]
    rfl

theorem minusChar_idem (c : Char) : minusChar (minusChar c) = minusChar c := by
  cases hf : paresMayusMinus.find? (fun e => e.1 = c) with
  | none =>
    have h0 : minusChar c = c := by rw [minusChar, hf]; rfl
    rw [h0]
    exact h0
  | some e =>
    have he2 : e ∈ paresMayusMinus := List.mem_of_find?_eq_some hf
    have h1 : minusChar c = e.2 := by rw [minusChar, hf]; rfl
    have hx : ∀ x ∈ paresMayusMinus,
        paresMayusMinus.find? (fun e => e.1 = x.2) = none := by decide
    rw [h1, minusChar, hx e he2]
    rfl

theorem esLetra_mayusChar (c : Char) : esLetra (mayusChar c) = esLetra c := by
  cases hf : paresMayusMinus.find? (fun e => e.2 = c) with
  | none =>
    have h0 : mayusChar c = c := by rw [mayusChar, hf]; rfl
    rw [h0]
  | some e =>
    have he1 : e.2 = c := by simpa using List.find?_some hf
    have he2 : e ∈ paresMayusMinus := List.mem_of_find?_eq_some hf
    have h1 : mayusChar c = e.1 := by rw [mayusChar, hf]; rfl
    have hx : ∀ x ∈ paresMayusMinus, esLetra x.1 = true ∧ esLetra x.2 = true := by
      decide
    rw [h1, (hx e he2).1, ← he1, (hx e he2).2]

theorem esLetra_minusChar (c : Char) : esLetra (minusChar c) = esLetra c := by
  cases hf : paresMayusMinus.find? (fun e => e.1 = c) with
  | none =>
    have h0 : minusChar c = c := by rw [minusChar, hf]; rfl
    rw [h0]
  | some e =>
    have he1 : e.1 = c := by simpa using List.find?_some hf
    have he2 : e ∈ paresMayusMinus := List.mem_of_find?_eq_some hf
    have h1 : minusChar c = e.2 := by rw [minusChar, hf]; rfl
    have hx : ∀ x ∈ paresMayusMinus, esLetra x.1 = true ∧ esLetra x.2 = true := by
      decide
    rw [h1, (hx e he2).2, ← he1, (hx e he2).1]

theorem titleChars_profile (b : Bool) (l : List Char) :
    (titleChars b l).map esEspacio = l.map esEspacio := by
  induction l generalizing b with
  | nil => rfl
  | cons c t ih =>
    rw [titleChars, List.map_cons, List.map_cons, ih (esLetra c)]
    cases b
    · rw [if_neg (by simp), esEspacio_mayusChar]
    · rw [if_pos rfl, esEspacio_minusChar]

theorem titleChars_idem (b : Bool) (l : List Char) :
    titleChars b (titleChars b l) = titleChars b l := by
  induction l generalizing b with
  | nil => rfl
  | cons c t ih =>
    rw [titleChars, titleChars]
    cases b
    · rw [if_neg (by simp), if_neg (by simp), mayusChar_idem, esLetra_mayusChar,
        ih (esLetra c)]
    · rw [if_pos rfl, if_pos rfl, minusChar_idem, esLetra_minusChar,
        ih (esLetra c)]

theorem stripChars_map {f : Char → Char}
    (hf : ∀ c, esEspacio (f c) = esEspacio c) (l : List Char) :
    stripChars (l.map f) = (stripChars l).map f := by
  have hcomp : (esEspacio ∘ f) = esEspacio := funext hf
  have hdrop : ∀ m : List Char,
      List.dropWhile esEspacio (m.map f) = (List.dropWhile esEspacio m).map f := by
    intro m
    rw [List.dropWhile_map, hcomp]
  have hrev : ∀ m : List Char, (List.map f m).reverse = List.map f m.reverse := by
    intro m
    rw [List.map_reverse]
  simp only [stripChars, List.rdropWhile, hdrop, hrev]

theorem stripChars_eq_nil_iff {l : List Char} :
    stripChars l = [] ↔ ∀ c ∈ l, esEspacio c := by
  rw [stripChars, List.rdropWhile_eq_nil_iff]
  constructor
  · intro h c hc
    by_cases hmem : c ∈ List.dropWhile esEspacio l
    · exact h c hmem
    · rcases List.mem_append.mp
        ((List.takeWhile_append_dropWhile esEspacio l) ▸ hc) with h1 | h1
      · exact List.mem_takeWhile_imp h1
      · exact absurd h1 hmem
  · intro h c hc
    exact h c (List.IsSuffix.subset (List.dropWhile_suffix esEspacio) hc)

theorem dropWhile_eq_self_of_profile {p : Char → Bool} {a b : List Char}
    (hmap : a.map p = b.map p) (hb : List.dropWhile p b = b) :
    List.dropWhile p a = a := by
  cases a with
  | nil => rfl
  | cons c t =>
    cases b with
    | nil => cases hmap
    | cons c' t' =>
      simp only [List.map_cons, List.cons.injEq] at hmap
      rw [List.dropWhile_cons] at hb
      by_cases hpc' : p c' = true
      · rw [if_pos hpc'] at hb
        have hlen : (List.dropWhile p t').length ≤ t'.length :=
          List.Sublist.length_le (List.IsSuffix.sublist (List.dropWhile_suffix p))
        rw [hb] at hlen
        simp at hlen
      · rw [List.dropWhile_cons, hmap.1, if_neg hpc']

theorem dropWhile_eq_self_of_prefix {p : Char → Bool} {s m : List Char}
    (hpre : s <+: m) (hm : List.dropWhile p m = m) :
    List.dropWhile p s = s := by
  cases s with
  | nil => rfl
  | cons c t =>
    cases m with
    | nil =>
      obtain ⟨u, hu⟩ := hpre
      cases hu
    | cons c' t' =>
      obtain ⟨u, hu⟩ := hpre
      have hc : c = c' := by
        have h1 := congrArg (fun x => x.head?) hu
        simpa using h1
      rw [List.dropWhile_cons] at hm
      by_cases hpc' : p c' = true
      · rw [if_pos hpc'] at hm
        have hlen : (List.dropWhile p t').length ≤ t'.length :=
          List.Sublist.length_le (List.IsSuffix.sublist (List.dropWhile_suffix p))
        rw [hm] at hlen
        simp at hlen
      · rw [List.dropWhile_cons, hc, if_neg hpc']

theorem stripChars_idem (l : List Char) :
    stripChars (stripChars l) = stripChars l := by
  have hdropself : List.dropWhile esEspacio (stripChars l) = stripChars l :=
    dropWhile_eq_self_of_prefix
      (List.rdropWhile_prefix esEspacio (List.dropWhile esEspacio l))
      (List.dropWhile_idempotent esEspacio l)
  show List.rdropWhile esEspacio (List.dropWhile esEspacio (stripChars l)) =
    stripChars l
  rw [hdropself, stripChars, List.rdropWhile_idempotent]

theorem stripChars_eq_self_of_profile {a b : List Char}
    (hmap : a.map esEspacio = b.map esEspacio) (hb : stripChars b = b) :
    stripChars a = a := by
  have hrlen : ∀ x : List Char,
      (List.rdropWhile esEspacio x).length ≤ x.length := by
    intro x
    rw [List.rdropWhile, List.length_reverse]
    calc (List.dropWhile esEspacio x.reverse).length
        ≤ x.reverse.length := List.Sublist.length_le
          (List.IsSuffix.sublist (List.dropWhile_suffix esEspacio))
      _ = x.length := List.length_reverse x
  have h2 : (List.dropWhile esEspacio b).length ≤ b.length :=
    List.Sublist.length_le (List.IsSuffix.sublist (List.dropWhile_suffix esEspacio))
  have h1 : b.length ≤ (List.dropWhile esEspacio b).length := by
    conv_lhs => rw [← hb]
    exact hrlen (List.dropWhile esEspacio b)
  have hbdrop : List.dropWhile esEspacio b = b :=
    List.Sublist.eq_of_length
      (List.IsSuffix.sublist (List.dropWhile_suffix esEspacio))
      (le_antisymm h2 h1)
  have hrd : List.rdropWhile esEspacio b = b := by
    have h3 := hb
    rw [stripChars, hbdrop] at h3
    exact h3
  have hbrdrop : List.dropWhile esEspacio b.reverse = b.reverse := by
    have h4 := congrArg List.reverse hrd
    rw [List.rdropWhile, List.reverse_reverse] at h4
    exact h4
  have hadrop : List.dropWhile esEspacio a = a :=
    dropWhile_eq_self_of_profile hmap hbdrop
  have hmaprev : a.reverse.map esEspacio = b.reverse.map esEspacio := by
    rw [List.map_reverse, List.map_reverse, hmap]
  have hardrop : List.dropWhile esEspacio a.reverse = a.reverse :=
    dropWhile_eq_self_of_profile hmaprev hbrdrop
  rw [stripChars, hadrop, List.rdropWhile, hardrop, List.reverse_reverse]

/-- Destructure a successful run of the validating constructor. -/
theorem crear_destruct {i n : String} {c : Int} {pr : ℚ} {now : String}
    {p : Producto} (h : Producto.crear i n c pr now = .ok p) :
    ∃ i' n' c' pr', validar_id i = .ok i' ∧ validar_nombre n = .ok n' ∧
      validar_cantidad c = .ok c' ∧ validar_precio pr = .ok pr' ∧
      p = ⟨i', n', c', pr', now⟩ := by
  rw [Producto.crear] at h
  cases h1 : validar_id i with
  | error e => simp only [h1, bind, Except.bind] at h; exact Except.noConfusion h
  | ok i' =>
    rw [h1] at h
    cases h2 : validar_nombre n with
    | error e => simp only [h2, bind, Except.bind] at h; exact Except.noConfusion h
    | ok n' =>
      rw [h2] at h
      cases h3 : validar_cantidad c with
      | error e => simp only [h3, bind, Except.bind] at h; exact Except.noConfusion h
      | ok c' =>
        rw [h3] at h
        cases h4 : validar_precio pr with
        | error e => simp only [h4, bind, Except.bind] at h; exact Except.noConfusion h
        | ok pr' =>
          rw [h4] at h
          simp only [bind, Except.bind, Except.ok.injEq] at h
          exact ⟨i', n', c', pr', rfl, rfl, rfl, rfl, h.symm⟩

theorem validar_id_fix {i i' : String} (h : validar_id i = .ok i') :
    validar_id i' = .ok i' := by
  rw [validar_id] at h
  by_cases hb : pyStrip i = ""
  · rw [if_pos hb] at h
    exact Except.noConfusion h
  · rw [if_neg hb] at h
    cases h
    have hxne : stripChars i.data ≠ [] := by
      intro h0
      apply hb
      show (⟨stripChars i.data⟩ : String) = ""
      rw [h0]
    have hstrip : pyStrip (pyUpper (pyStrip i)) = pyUpper (pyStrip i) := by
      show (⟨stripChars ((stripChars i.data).map mayusChar)⟩ : String) =
        ⟨(stripChars i.data).map mayusChar⟩
      rw [stripChars_map esEspacio_mayusChar, stripChars_idem]
    have hne2 : ¬ pyUpper (pyStrip i) = "" := by
      intro h0
      have h1 : (stripChars i.data).map mayusChar = [] := by
        have := congrArg String.data h0
        exact this
      exact hxne (List.map_eq_nil_iff.mp h1)
    rw [validar_id, hstrip, if_neg hne2]
    have hmm : mayusChar ∘ mayusChar = mayusChar := funext mayusChar_idem
    show Except.ok (⟨((stripChars i.data).map mayusChar).map mayusChar⟩ : String) = _
    rw [List.map_map, hmm]
    rfl

theorem validar_nombre_fix {n n' : String} (h : validar_nombre n = .ok n') :
    validar_nombre n' = .ok n' ∧ normalizar_nombre n' ≠ "" := by
  rw [validar_nombre] at h
  by_cases hb : pyStrip n = ""
  · rw [if_pos hb] at h
    exact Except.noConfusion h
  · rw [if_neg hb] at h
    cases h
    have hyne : stripChars n.data ≠ [] := by
      intro h0
      apply hb
      show (⟨stripChars n.data⟩ : String) = ""
      rw [h0]
    have hprofile := titleChars_profile false (stripChars n.data)
    have htne : titleChars false (stripChars n.data) ≠ [] := by
      intro h0
      have h1 := congrArg List.length hprofile
      rw [List.length_map, List.length_map, h0] at h1
      exact hyne (List.length_eq_zero.mp h1.symm)
    have hstrip : stripChars (titleChars false (stripChars n.data)) =
        titleChars false (stripChars n.data) :=
      stripChars_eq_self_of_profile hprofile (stripChars_idem n.data)
    have hstrip' : pyStrip (pyTitle (pyStrip n)) = pyTitle (pyStrip n) := by
      show (⟨stripChars (titleChars false (stripChars n.data))⟩ : String) = _
      rw [hstrip]
      rfl
    have hne2 : ¬ pyTitle (pyStrip n) = "" := by
      intro h0
      exact htne (congrArg String.data h0)
    constructor
    · rw [validar_nombre, hstrip', if_neg hne2]
      show Except.ok
        (⟨titleChars false (titleChars false (stripChars n.data))⟩ : String) = _
      rw [titleChars_idem]
      rfl
    · intro h0
      have h1 : stripChars ((titleChars false (stripChars n.data)).map minusChar)
          = [] := congrArg String.data h0
      rw [stripChars_map esEspacio_minusChar, hstrip] at h1
      exact htne (List.map_eq_nil_iff.mp h1)

theorem validar_cantidad_fix {c c' : Int} (h : validar_cantidad c = .ok c') :
    validar_cantidad c' = .ok c' := by
  rw [validar_cantidad] at h
  by_cases hb : c < 0
  · rw [if_pos hb] at h
    exact Except.noConfusion h
  · rw [if_neg hb] at h
    cases h
    rw [validar_cantidad, if_neg hb]

theorem validar_precio_fix {pr pr' : ℚ} (h : validar_precio pr = .ok pr') :
    validar_precio pr' = .ok pr' := by
  rw [validar_precio] at h
  by_cases hb : pr < 0
  · rw [if_pos hb] at h
    exact Except.noConfusion h
  · rw [if_neg hb] at h
    cases h
    rw [validar_precio, if_neg hb]

/-- Every product built by the validating constructor is well formed: the
hypotheses `ProductoWF`/`OpWF` used above hold for all products the
program can actually create. -/
theorem crear_wf {i n : String} {c : Int} {pr : ℚ} {now : String}
    {p : Producto} (h : Producto.crear i n c pr now = .ok p) :
    ProductoWF p := by
  obtain ⟨i', n', c', pr', h1, h2, h3, h4, rfl⟩ := crear_destruct h
  obtain ⟨hn1, hn2⟩ := validar_nombre_fix h2
  exact ⟨validar_id_fix h1, hn1, validar_cantidad_fix h3,
    validar_precio_fix h4, hn2⟩
